import Mathlib

/-!
Formalisation of the incremental constraint-matching library
(src/constraint.py): the verdict lattice, the primitive constraints,
the logical combinators and the Group/Sequence path engine, together
with theorems settling the specification's claims about them.

Python values are modelled by the dynamic type `PyVal`; a constraint's
hidden mutable state is modelled by the explicit state type `EvalSt`;
a constraint (the pair of closures `init, test`) is the structure `Con`.
-/

namespace ConstraintLib

/-- Verdict: in the source a frozenset over the two flags 1 (CONTINUE)
and 2 (MATCHING); here the two independent bits. -/
structure Verdict where
  cont : Bool
  matc : Bool
deriving DecidableEq, Repr

/-- The empty verdict set: rejected, no continuation. -/
def Invalid : Verdict := ⟨false, false⟩

/-- Only the CONTINUE flag. -/
def Continue : Verdict := ⟨true, false⟩

/-- Only the MATCHING flag. -/
def Matching : Verdict := ⟨false, true⟩

/-- Both flags: `Continue | Matching` in the source. -/
def Satisfied : Verdict := ⟨true, true⟩

/-- Python `v1 & v2` on the verdict frozensets. -/
def Verdict.inter (a b : Verdict) : Verdict := ⟨a.cont && b.cont, a.matc && b.matc⟩

/-- Python `v1 | v2` on the verdict frozensets. -/
def Verdict.union (a b : Verdict) : Verdict := ⟨a.cont || b.cont, a.matc || b.matc⟩

/-- Dynamic Python values used as tokens (and as scalar pieces of state):
`None`, ints and characters cover every token the library's claims use. -/
inductive PyVal : Type where
  | none
  | int (n : Int)
  | char (c : Char)
deriving DecidableEq, Repr

mutual
/-- The hidden state of one evaluation instance.  Primitives keep a
scalar (`None`, a previous token, a counter, `Single`'s toggle);
`And`/`Or` keep the list of child states in child order; `Group` keeps
its list of live paths. -/
inductive EvalSt : Type where
  | pv (v : PyVal)
  | intSt (n : Int)
  | boolSt (b : Bool)
  | children (ss : List EvalSt)
  | paths (ps : List GPath)

/-- One live path of the Group engine: the source's tuple
`(m_state, m_verdict, c_state, c_verdict, c_test, c_id)`.  The stored
`c_test` always equals the test of `constraints[c_id]` (and is never
invoked on the seed path, whose `c_id` is `None`), so the path keeps
only `c_id` and the active child's test is recovered by lookup. -/
inductive GPath : Type where
  | mk (mSt : EvalSt) (mV : Verdict) (cSt : EvalSt) (cV : Verdict) (cId : Option Nat)
end

def GPath.mSt : GPath → EvalSt
  | .mk x _ _ _ _ => x

def GPath.mV : GPath → Verdict
  | .mk _ x _ _ _ => x

def GPath.cSt : GPath → EvalSt
  | .mk _ _ x _ _ => x

def GPath.cV : GPath → Verdict
  | .mk _ _ _ x _ => x

def GPath.cId : GPath → Option Nat
  | .mk _ _ _ _ x => x

/-- Python's `c_state == None` test (no state object other than the
literal `None` compares equal to `None`). -/
def isNoneSt : EvalSt → Bool
  | .pv .none => true
  | _ => false

/-- A constraint: the pair of closures `(init, test)` returned by each
descriptor constructor in the source. -/
structure Con where
  init : EvalSt × Verdict
  test : EvalSt → PyVal → EvalSt × Verdict

/-- `Any()`: matches anything. -/
def Any : Con :=
  ⟨(.pv .none, Satisfied), fun st _ => (st, Satisfied)⟩

/-- `Null()`: matches nothing (only the empty sequence). -/
def Null : Con :=
  ⟨(.pv .none, Matching), fun st _ => (st, Invalid)⟩

/-- `Member(elements)`: tokens drawn from a fixed collection. -/
def Member (elements : List PyVal) : Con :=
  ⟨(.pv .none, Satisfied), fun st tok =>
    (st, if tok ∈ elements then Satisfied else Invalid)⟩

/-- `Alternate()`: consecutive tokens must differ; state is the previous
token, initialised to the sentinel `None`. -/
def Alternate : Con :=
  ⟨(.pv .none, Satisfied), fun st tok =>
    match st with
    | .pv v => if v ≠ tok then (.pv tok, Satisfied) else (st, Invalid)
    | _ => (st, Invalid)⟩

/-- `Single()`: exactly one token; state is the boolean toggle. -/
def Single : Con :=
  ⟨(.boolSt true, Continue), fun st _ =>
    match st with
    | .boolSt b => if b then (.boolSt false, Matching) else (st, Invalid)
    | _ => (st, Invalid)⟩

/-- The body of `Repeat(min, max).test`; the state is the source's
integer counter (the `_ => ` arm totalises the unreachable case of a
non-integer state). -/
def repeatTest (min : Int) (max : Option Int) (st : EvalSt) (_tok : PyVal) :
    EvalSt × Verdict :=
  match st with
  | .intSt s =>
    if s < min then (.intSt (s + 1), Continue)
    else
      match max with
      | .none => (.intSt (s + 1), Satisfied)
      | .some m =>
        if s < m then (.intSt (s + 1), Satisfied)
        else if s = m then (.intSt (s + 1), Matching)
        else (st, Invalid)
  | _ => (st, Invalid)

/-- `Repeat(min, max)` (the spec's `CountRange`): counts tokens; its
`init` is `test(0, None)` exactly as in the source. -/
def Repeat (min : Int) (max : Option Int) : Con :=
  ⟨repeatTest min max (.intSt 0) PyVal.none, repeatTest min max⟩

/-- The body of `Range(...).test`: the state is the expected next value;
a token is admitted only when it equals the state (so after the equality
test the token is known to be that integer). -/
def rangeTest (max stp : Int) (st : EvalSt) (tok : PyVal) : EvalSt × Verdict :=
  match st with
  | .intSt s =>
    if tok = .int s then
      if s < max - stp then (.intSt (s + stp), Continue)
      else (.intSt (s + stp), Satisfied)
    else (st, Invalid)
  | _ => (st, Invalid)

/-- `Range` with its three parameters already dispatched: `init` runs
`test(min, min)` for the verdict but keeps `min` as the state, exactly
as in the source. -/
def RangeC (min max stp : Int) : Con :=
  ⟨(.intSt min, (rangeTest max stp (.intSt min) (.int min)).2), rangeTest max stp⟩

/-- `Range(*args)`: the argument dispatch of the source constructor;
any argument count other than 1, 2 or 3 raises before a constraint
value exists, modelled by the `Except` error. -/
def Range (args : List Int) : Except String Con :=
  match args with
  | [a] => .ok (RangeC 0 a 1)
  | [a, b] => .ok (RangeC a b 1)
  | [a, b, c] => .ok (RangeC a b c)
  | _ => .error "Too many arguments."

/-- `And(*constraints)` (named `AndC`: `And` is taken by the logic).
`init` creates one instance per child and AND-combines the verdicts. -/
def AndC (cs : List Con) : Con :=
  ⟨(.children (cs.map (fun c => c.init.1)),
    (cs.map (fun c => c.init.2)).foldl Verdict.inter Satisfied),
   fun st tok =>
    match st with
    | .children ss =>
      let z := (cs.zip ss).map (fun p => p.1.test p.2 tok)
      let verdict := (z.map Prod.snd).foldl Verdict.inter Satisfied
      if verdict = Invalid then (st, Invalid)
      else (.children (z.map Prod.fst), verdict)
    | _ => (st, Invalid)⟩

/-- `Or(*constraints)` (named `OrC`): OR-combining twin of `AndC`. -/
def OrC (cs : List Con) : Con :=
  ⟨(.children (cs.map (fun c => c.init.1)),
    (cs.map (fun c => c.init.2)).foldl Verdict.union Invalid),
   fun st tok =>
    match st with
    | .children ss =>
      let z := (cs.zip ss).map (fun p => p.1.test p.2 tok)
      let verdict := (z.map Prod.snd).foldl Verdict.union Invalid
      if verdict = Invalid then (st, Invalid)
      else (.children (z.map Prod.fst), verdict)
    | _ => (st, Invalid)⟩

/-- The continue branch of `Group.test`: a path whose child verdict has
the CONTINUE bit advances its child with the token and survives when the
new child verdict is not Invalid. -/
def contPath (cs : List Con) (p : GPath) (tok : PyVal) : List GPath :=
  if p.cV.cont then
    match p.cId with
    | some i =>
      match cs.get? i with
      | some c =>
        let r := c.test p.cSt tok
        if r.2 = Invalid then [] else [⟨p.mSt, p.mV, r.1, r.2, p.cId⟩]
      | none => []
    | none => []
  else []

/-- One candidate spawn of `Group.test`, including the source's
optimisation that skips re-spawning the currently active child when
that child's state is `None`. -/
def spawnOne (meta : Con) (p : GPath) (tok : PyVal) (i : Nat) (c : Con) : List GPath :=
  if p.cId = some i ∧ isNoneSt p.cSt then []
  else
    let m := meta.test p.mSt (.int i)
    if m.2 = Invalid then []
    else
      let c0 := c.init
      if c0.2.cont = false then []
      else
        let c1 := c.test c0.1 tok
        if c1.2 = Invalid then [] else [⟨m.1, m.2, c1.1, c1.2, some i⟩]

/-- The `enumerate(constraints)` loop of the spawn branch. -/
def spawnFrom (meta : Con) (p : GPath) (tok : PyVal) : Nat → List Con → List GPath
  | _, [] => []
  | i, c :: rest => spawnOne meta p tok i c ++ spawnFrom meta p tok (i + 1) rest

/-- The spawn branch fires only when the path's child verdict has the
MATCHING bit. -/
def spawnPaths (cs : List Con) (meta : Con) (p : GPath) (tok : PyVal) : List GPath :=
  if p.cV.matc then spawnFrom meta p tok 0 cs else []

/-- Everything one original path contributes to the new path set. -/
def stepPath (cs : List Con) (meta : Con) (tok : PyVal) (p : GPath) : List GPath :=
  contPath cs p tok ++ spawnPaths cs meta p tok

/-- The new path set: contributions of the original paths in order. -/
def groupStepPaths (cs : List Con) (meta : Con) (ps : List GPath) (tok : PyVal) :
    List GPath :=
  ps.flatMap (stepPath cs meta tok)

/-- A path's contribution to the final verdict:
`(Continue & (c | m)) | (Matching & (c & m))`. -/
def pathVerdict (p : GPath) : Verdict :=
  (Continue.inter (p.cV.union p.mV)).union (Matching.inter (p.cV.inter p.mV))

/-- The OR-reduction of the path verdicts over the new path set. -/
def groupVerdict (ps : List GPath) : Verdict :=
  ps.foldl (fun v p => v.union (pathVerdict p)) Invalid

/-- `Group.test`: step every path, combine; if no verdict survives the
original state is returned unchanged (the rollback of the source). -/
def groupTest (cs : List Con) (meta : Con) (st : EvalSt) (tok : PyVal) :
    EvalSt × Verdict :=
  match st with
  | .paths ps =>
    let ps2 := groupStepPaths cs meta ps tok
    let v := groupVerdict ps2
    if v = Invalid then (st, Invalid) else (.paths ps2, v)
  | _ => (st, Invalid)

/-- `Group(*constraints, meta=...)`: one seed path with no active child
and child verdict `Matching`, overall verdict the meta's initial one. -/
def Group (cs : List Con) (meta : Con) : Con :=
  ⟨(.paths [⟨meta.init.1, meta.init.2, .pv .none, Matching, none⟩], meta.init.2),
   groupTest cs meta⟩

/-- `Sequence(*constraints) = Group(*constraints, meta=Range(len(constraints)))`. -/
def Sequence (cs : List Con) : Con :=
  Group cs (RangeC 0 cs.length 1)

/-- `spawnOne` without the source's skip optimisation. -/
def spawnOneNoSkip (meta : Con) (p : GPath) (tok : PyVal) (i : Nat) (c : Con) :
    List GPath :=
  let m := meta.test p.mSt (.int i)
  if m.2 = Invalid then []
  else
    let c0 := c.init
    if c0.2.cont = false then []
    else
      let c1 := c.test c0.1 tok
      if c1.2 = Invalid then [] else [⟨m.1, m.2, c1.1, c1.2, some i⟩]

def spawnFromNoSkip (meta : Con) (p : GPath) (tok : PyVal) : Nat → List Con → List GPath
  | _, [] => []
  | i, c :: rest => spawnOneNoSkip meta p tok i c ++ spawnFromNoSkip meta p tok (i + 1) rest

def spawnPathsNoSkip (cs : List Con) (meta : Con) (p : GPath) (tok : PyVal) : List GPath :=
  if p.cV.matc then spawnFromNoSkip meta p tok 0 cs else []

def stepPathNoSkip (cs : List Con) (meta : Con) (tok : PyVal) (p : GPath) : List GPath :=
  contPath cs p tok ++ spawnPathsNoSkip cs meta p tok

def groupStepPathsNoSkip (cs : List Con) (meta : Con) (ps : List GPath) (tok : PyVal) :
    List GPath :=
  ps.flatMap (stepPathNoSkip cs meta tok)

def groupTestNoSkip (cs : List Con) (meta : Con) (st : EvalSt) (tok : PyVal) :
    EvalSt × Verdict :=
  match st with
  | .paths ps =>
    let ps2 := groupStepPathsNoSkip cs meta ps tok
    let v := groupVerdict ps2
    if v = Invalid then (st, Invalid) else (.paths ps2, v)
  | _ => (st, Invalid)

/-- The variant of `Group` whose spawn search never skips a candidate. -/
def GroupNoSkip (cs : List Con) (meta : Con) : Con :=
  ⟨(.paths [⟨meta.init.1, meta.init.2, .pv .none, Matching, none⟩], meta.init.2),
   groupTestNoSkip cs meta⟩

/-- The spec's `CountRange(min, max)` verdict policy at a consumed count
`c`: below `min` Continue, from `min` up to but excluding `max`
Satisfied, exactly `max` Matching, beyond `max` Invalid. -/
def countPolicy (min : Int) (max : Option Int) (c : Int) : Verdict :=
  if c < min then Continue
  else
    match max with
    | .none => Satisfied
    | .some m =>
      if c < m then Satisfied
      else if c = m then Matching
      else Invalid

/-- Spec-side meta-constraint for the refinement claim: the admission
automaton of `Group(c1..cn, meta=CountRange(n,n))` combined with the
spec's strict left-to-right rule that an admitted child index must
equal the meta-constraint's running count.  The state is the count of
admissions so far; verdicts follow the `CountRange(n,n)` policy. -/
def strictMeta (n : Nat) : Con :=
  ⟨(.intSt 0, countPolicy n (some n) 0),
   fun st tok =>
    match st with
    | .intSt k =>
      if tok = .int k then (.intSt (k + 1), countPolicy n (some n) (k + 1))
      else (st, Invalid)
    | _ => (st, Invalid)⟩

/-- Spec-side combinator for the refinement claim: `Group` of the same
children driven by `strictMeta`. -/
def GroupStrict (cs : List Con) : Con :=
  Group cs (strictMeta cs.length)

/-- The driver loop of `match(constraint, tokens)`: losing the CONTINUE
bit with tokens remaining forces the verdict to Invalid and stops. -/
def matchLoop (tst : EvalSt → PyVal → EvalSt × Verdict) :
    EvalSt → Verdict → List PyVal → Verdict
  | _, v, [] => v
  | st, v, tok :: toks =>
    if v.cont then
      let r := tst st tok
      matchLoop tst r.1 r.2 toks
    else Invalid

/-- `match(constraint, tokens)` of the source (`match` is a Lean
keyword, hence the name). -/
def matchC (c : Con) (toks : List PyVal) : Bool :=
  (matchLoop c.test c.init.1 c.init.2 toks).matc

/-- Feeding every token unconditionally (the hypothetical run used to
state driver properties): the pair is the state and last verdict. -/
def runCon (c : Con) : EvalSt × Verdict → List PyVal → EvalSt × Verdict
  | sv, [] => sv
  | sv, tok :: toks => runCon c (c.test sv.1 tok) toks

/-- The verdict after unconditionally feeding `toks` from `init`. -/
def runV (c : Con) (toks : List PyVal) : Verdict :=
  (runCon c c.init toks).2

/-! Basic facts about the verdict lattice and the driver loop. -/

@[simp] lemma Invalid_cont : Invalid.cont = false := rfl

@[simp] lemma Invalid_matc : Invalid.matc = false := rfl

@[simp] lemma Continue_cont : Continue.cont = true := rfl

@[simp] lemma Continue_matc : Continue.matc = false := rfl

@[simp] lemma Matching_cont : Matching.cont = false := rfl

@[simp] lemma Matching_matc : Matching.matc = true := rfl

@[simp] lemma Satisfied_cont : Satisfied.cont = true := rfl

@[simp] lemma Satisfied_matc : Satisfied.matc = true := rfl

lemma Verdict.eq_iff (v w : Verdict) : v = w ↔ v.cont = w.cont ∧ v.matc = w.matc := by
  cases v; cases w; simp

lemma Verdict.ne_Invalid_iff (v : Verdict) :
    v ≠ Invalid ↔ (v.cont = true ∨ v.matc = true) := by
  cases v with
  | mk c m => cases c <;> cases m <;> simp [Invalid]

@[simp] lemma matchLoop_nil (tst) (st : EvalSt) (v : Verdict) :
    matchLoop tst st v [] = v := rfl

lemma matchLoop_cons (tst) (st : EvalSt) (v : Verdict) (tok : PyVal) (toks : List PyVal) :
    matchLoop tst st v (tok :: toks) =
      if v.cont then matchLoop tst (tst st tok).1 (tst st tok).2 toks else Invalid := rfl

lemma matchLoop_invalid (tst) (st : EvalSt) (toks : List PyVal) :
    matchLoop tst st Invalid toks = Invalid := by
  cases toks <;> simp [matchLoop_cons]

/-- C3: the claim that the skip optimisation never changes the final
accept/reject result is false on the code, and the code's own comment
presents the skip as a pure optimisation: on `Group([Any()],
meta=Repeat(2, 2))` over two tokens the skip suppresses the respawn
that would let the meta-constraint count a second admission, so the
engine with the skip rejects the two-token stream that the engine
without the skip accepts. -/
theorem group_skip_changes_verdict :
    matchC (Group [Any] (Repeat 2 (some 2))) [.int 7, .int 7] = false ∧
    matchC (GroupNoSkip [Any] (Repeat 2 (some 2))) [.int 7, .int 7] = true := by
  constructor <;> rfl

/-- C5: a `Group.test` call that reports Invalid returns the pre-call
evaluation state unchanged (the rollback of the source's
`return state, Invalid` branch). -/
theorem group_invalid_rolls_back (cs : List Con) (meta : Con) (st : EvalSt) (tok : PyVal)
    (h : ((Group cs meta).test st tok).2 = Invalid) :
    ((Group cs meta).test st tok).1 = st := by
  revert h
  cases st with
  | paths ps =>
    simp only [Group, groupTest]
    split
    · intro _
      rfl
    · rename_i hv
      intro h
      exact absurd h hv
  | pv v => intro _; rfl
  | intSt n => intro _; rfl
  | boolSt b => intro _; rfl
  | children ss => intro _; rfl

/-- Witness for C5 at a concrete rejecting step: a `Group` with no
children steps its seed path to the empty path set, reports Invalid and
keeps its state. -/
theorem group_invalid_rolls_back_witness :
    ((Group [] Any).test (Group [] Any).init.1 (.int 0)).2 = Invalid ∧
    ((Group [] Any).test (Group [] Any).init.1 (.int 0)).1 = (Group [] Any).init.1 := by
  exact ⟨rfl, group_invalid_rolls_back [] Any (Group [] Any).init.1 (.int 0) rfl⟩

/-- C8: calling `Range` with more than three bound/step arguments fails
at descriptor-construction time, before any evaluation instance exists
(in the source the `raise` in the constructor body; here the `Except`
error instead of a constraint value). -/
theorem range_too_many_args (args : List Int) (h : 3 < args.length) :
    Range args = .error "Too many arguments." := by
  rcases args with _ | ⟨a, _ | ⟨b, _ | ⟨c, _ | ⟨d, rest⟩⟩⟩⟩
  · simp at h
  · simp at h
  · simp at h
  · simp at h
  · rfl

/-- Witness for C8 at four arguments. -/
theorem range_too_many_args_witness :
    3 < ([1, 2, 3, 4] : List Int).length ∧
    Range [1, 2, 3, 4] = .error "Too many arguments." :=
  ⟨by decide, range_too_many_args [1, 2, 3, 4] (by decide)⟩

/-- C9: like `Group`, the `And` and `Or` combinators return the state
they were given whenever the combined verdict of a step is Invalid, so
a rejecting step never leaves a partially updated child-state list. -/
theorem andc_orc_invalid_roll_back (cs : List Con) (st : EvalSt) (tok : PyVal) :
    (((AndC cs).test st tok).2 = Invalid → ((AndC cs).test st tok).1 = st) ∧
    (((OrC cs).test st tok).2 = Invalid → ((OrC cs).test st tok).1 = st) := by
  constructor <;>
  · cases st with
    | children ss =>
      simp only [AndC, OrC]
      split
      · intro _
        rfl
      · rename_i hv
        intro h
        exact absurd h hv
    | pv v => intro _; rfl
    | intSt n => intro _; rfl
    | boolSt b => intro _; rfl
    | paths ps => intro _; rfl

/-- Witness for C9 at a concrete rejecting step of each combinator. -/
theorem andc_orc_invalid_roll_back_witness :
    (((AndC [Null]).test (AndC [Null]).init.1 (.int 0)).2 = Invalid ∧
      ((AndC [Null]).test (AndC [Null]).init.1 (.int 0)).1 = (AndC [Null]).init.1) ∧
    (((OrC [Null]).test (OrC [Null]).init.1 (.int 0)).2 = Invalid ∧
      ((OrC [Null]).test (OrC [Null]).init.1 (.int 0)).1 = (OrC [Null]).init.1) :=
  ⟨⟨rfl, (andc_orc_invalid_roll_back [Null] (AndC [Null]).init.1 (.int 0)).1 rfl⟩,
   ⟨rfl, (andc_orc_invalid_roll_back [Null] (OrC [Null]).init.1 (.int 0)).2 rfl⟩⟩

/-- C10: `Alternate` initialises its previous-token state to the
sentinel `None`; a first token equal to `None` therefore collides with
the sentinel (first step Invalid, and the whole match is false however
the sequence continues), while any other first token yields
Satisfied. -/
theorem alternate_none_sentinel :
    Alternate.init.1 = .pv PyVal.none ∧
    (∀ rest : List PyVal,
      (Alternate.test Alternate.init.1 PyVal.none).2 = Invalid ∧
      matchC Alternate (PyVal.none :: rest) = false) ∧
    (∀ t : PyVal, t ≠ PyVal.none → (Alternate.test Alternate.init.1 t).2 = Satisfied) := by
  have h1 : Alternate.test Alternate.init.1 PyVal.none = (EvalSt.pv PyVal.none, Invalid) := by
    simp [Alternate]
  refine ⟨rfl, fun rest => ⟨by rw [h1], ?_⟩, fun t ht => ?_⟩
  · unfold matchC
    rw [matchLoop_cons, if_pos (show Alternate.init.2.cont = true from rfl), h1,
      matchLoop_invalid, Invalid_matc]
  · show (if (PyVal.none ≠ t) then ((EvalSt.pv t), Satisfied)
        else ((EvalSt.pv PyVal.none), Invalid)).2 = Satisfied
    rw [if_pos (fun h => ht h.symm)]

/-- Witness for C10 at the concrete first token `5`. -/
theorem alternate_none_sentinel_witness :
    (PyVal.int 5 ≠ PyVal.none) ∧
    (Alternate.test Alternate.init.1 (PyVal.int 5)).2 = Satisfied :=
  ⟨by decide, alternate_none_sentinel.2.2 (PyVal.int 5) (by decide)⟩

/-! The driver: `match` accepts exactly when every verdict before the
last token keeps the CONTINUE bit and the final verdict has the
MATCHING bit. -/

lemma runCon_nil (c : Con) (sv : EvalSt × Verdict) : runCon c sv [] = sv := rfl

lemma runCon_cons (c : Con) (sv : EvalSt × Verdict) (t : PyVal) (ts : List PyVal) :
    runCon c sv (t :: ts) = runCon c (c.test sv.1 t) ts := rfl

lemma matchLoop_char (c : Con) (ts : List PyVal) : ∀ (st : EvalSt) (v : Verdict),
    ((matchLoop c.test st v ts).matc = true ↔
      (∀ i, i < ts.length → (runCon c (st, v) (ts.take i)).2.cont = true) ∧
      (runCon c (st, v) ts).2.matc = true) := by
  induction ts with
  | nil =>
    intro st v
    simp [runCon]
  | cons t ts ih =>
    intro st v
    rw [matchLoop_cons]
    by_cases hv : v.cont = true
    · rw [if_pos hv]
      rw [ih (c.test st t).1 (c.test st t).2]
      constructor
      · rintro ⟨hA, hB⟩
        refine ⟨?_, ?_⟩
        · intro i hi
          cases i with
          | zero => simpa [runCon] using hv
          | succ j =>
            rw [List.take_succ_cons,
              show runCon c (st, v) (t :: ts.take j) = runCon c (c.test st t) (ts.take j)
                from rfl]
            exact hA j (by simpa using hi)
        · rw [show runCon c (st, v) (t :: ts) = runCon c (c.test st t) ts from rfl]
          exact hB
      · rintro ⟨hA, hB⟩
        refine ⟨?_, ?_⟩
        · intro j hj
          have := hA (j + 1) (by simpa using hj)
          rw [List.take_succ_cons,
            show runCon c (st, v) (t :: ts.take j) = runCon c (c.test st t) (ts.take j)
              from rfl] at this
          exact this
        · rw [show runCon c (st, v) (t :: ts) = runCon c (c.test st t) ts from rfl] at hB
          exact hB
    · rw [if_neg hv]
      simp only [Invalid_matc]
      constructor
      · intro h
        exact absurd h (by simp)
      · rintro ⟨hA, _⟩
        have h0 := hA 0 (by simp)
        simp only [List.take_zero, runCon_nil] at h0
        exact absurd h0 hv

/-- C4: the driver characterisation.  `matches(d, s)` is true exactly
when the verdict before each consumed token still has the CONTINUE bit
and the verdict after the last token has the MATCHING bit; and whenever
the verdict after a proper prefix lacks CONTINUE the whole match is
false regardless of the remaining tokens (the hard short-circuit: the
suffix is never applied to the instance). -/
theorem match_driver_characterisation (c : Con) (toks : List PyVal) :
    (matchC c toks = true ↔
      (∀ i, i < toks.length → (runCon c c.init (toks.take i)).2.cont = true) ∧
      (runCon c c.init toks).2.matc = true) ∧
    (∀ p rest : List PyVal, rest ≠ [] → (runV c p).cont = false →
      matchC c (p ++ rest) = false) := by
  constructor
  · exact matchLoop_char c toks c.init.1 c.init.2
  · intro p rest hrest hp
    cases hm : matchC c (p ++ rest) with
    | false => rfl
    | true =>
      exfalso
      have hchar := (matchLoop_char c (p ++ rest) c.init.1 c.init.2).mp hm
      have hlen : p.length < (p ++ rest).length := by
        rw [List.length_append]
        cases rest with
        | nil => exact absurd rfl hrest
        | cons r rs => simp
      have hcont := hchar.1 p.length hlen
      rw [List.take_left] at hcont
      rw [runV] at hp
      rw [show ((c.init.1 : EvalSt), (c.init.2 : Verdict)) = c.init from rfl] at hcont
      rw [hp] at hcont
      exact Bool.false_ne_true hcont

/-- Witness for C4: the short-circuit branch applied at `Single` after
two tokens, with one token remaining. -/
theorem match_driver_characterisation_witness :
    matchC Single ([PyVal.int 0, PyVal.int 0] ++ [PyVal.int 0]) = false :=
  (match_driver_characterisation Single []).2 [PyVal.int 0, PyVal.int 0] [PyVal.int 0]
    (by decide) (by decide)

/-! The `Repeat` counter (the spec's `CountRange`). -/

/-- The counter value held by a `Repeat(min, some max)` instance after
`c` consumed tokens (the source's `init` already runs one test, so the
stored counter is one ahead of the count while counting is alive). -/
def countState (max c : Int) : Int :=
  if c ≤ max then c + 1 else if 0 ≤ max then max + 1 else 0

lemma repeat_init_eq (min max : Int) (h : min ≤ max) :
    (Repeat min (some max)).init
      = (.intSt (countState max 0), countPolicy min (some max) 0) := by
  simp only [Repeat, repeatTest, countState, countPolicy]
  split_ifs <;>
    first
      | rfl
      | (exfalso; omega)
      | (simp only [Prod.mk.injEq, EvalSt.intSt.injEq, and_true]; omega)

lemma repeat_step (min max : Int) (h : min ≤ max) (c : Int) (hc : 0 ≤ c) (t : PyVal) :
    repeatTest min (some max) (.intSt (countState max c)) t
      = (.intSt (countState max (c + 1)), countPolicy min (some max) (c + 1)) := by
  simp only [repeatTest, countState, countPolicy]
  split_ifs <;>
    first
      | rfl
      | (exfalso; omega)
      | (simp only [Prod.mk.injEq, EvalSt.intSt.injEq, and_true]; omega)

lemma repeat_run_aux (min max : Int) (h : min ≤ max) (toks : List PyVal) :
    ∀ c : Int, 0 ≤ c →
    runCon (Repeat min (some max)) (.intSt (countState max c), countPolicy min (some max) c)
        toks
      = (.intSt (countState max (c + toks.length)),
         countPolicy min (some max) (c + toks.length)) := by
  induction toks with
  | nil =>
    intro c _
    simp [runCon_nil]
  | cons t ts ih =>
    intro c hc
    rw [runCon_cons]
    rw [show ((Repeat min (some max)).test
        ((EvalSt.intSt (countState max c), countPolicy min (some max) c)).1 t)
        = repeatTest min (some max) (.intSt (countState max c)) t from rfl]
    rw [repeat_step min max h c hc t]
    rw [ih (c + 1) (by omega)]
    have hlen : (c + 1) + (ts.length : Int) = c + ((t :: ts).length : Int) := by
      simp only [List.length_cons]
      push_cast
      ring
    rw [hlen]

/-- C6: for `CountRange(min, max)` (= `Repeat`) with `min ≤ max`, the
verdict after consuming `c` tokens follows the claimed policy: Continue
below `min`, Satisfied from `min` up to but excluding `max`, Matching
exactly at `max`, Invalid beyond `max`; and `CountRange(min=2)` with no
upper bound matches exactly the sequences of length at least two. -/
theorem repeat_count_policy :
    (∀ (min max : Int), min ≤ max → ∀ toks : List PyVal,
      runCon (Repeat min (some max)) (Repeat min (some max)).init toks
        = (.intSt (countState max toks.length),
           countPolicy min (some max) toks.length)) ∧
    (∀ s : List PyVal, matchC (Repeat 2 none) s = decide (2 ≤ s.length)) := by
  constructor
  · intro min max h toks
    rw [repeat_init_eq min max h]
    have := repeat_run_aux min max h toks 0 le_rfl
    simpa using this
  · intro s
    have main : ∀ (ts : List PyVal) (c : Nat),
        (matchLoop (repeatTest 2 none) (.intSt ((c : Int) + 1))
          (if (c : Int) < 2 then Continue else Satisfied) ts).matc
        = decide ((2 : Int) ≤ (c : Int) + ts.length) := by
      intro ts
      induction ts with
      | nil =>
        intro c
        rw [matchLoop_nil]
        by_cases hc : (c : Int) < 2
        · rw [if_pos hc]
          simp only [Continue_matc, List.length_nil]
          symm
          simp only [decide_eq_false_iff_not]
          push_cast
          omega
        · rw [if_neg hc]
          simp only [Satisfied_matc, List.length_nil]
          symm
          simp only [decide_eq_true_eq]
          push_cast
          omega
      | cons t ts ih =>
        intro c
        rw [matchLoop_cons]
        have hcont : (if (c : Int) < 2 then Continue else Satisfied).cont = true := by
          split_ifs <;> rfl
        rw [if_pos hcont]
        have hstep : repeatTest 2 none (.intSt ((c : Int) + 1)) t
            = (.intSt (((c + 1 : Nat) : Int) + 1),
               if ((c + 1 : Nat) : Int) < 2 then Continue else Satisfied) := by
          simp only [repeatTest]
          split_ifs <;>
            first
              | (exfalso; omega)
              | (simp only [Prod.mk.injEq, EvalSt.intSt.injEq, and_true]; omega)
        rw [hstep]
        rw [ih (c + 1)]
        rw [decide_eq_decide]
        simp only [List.length_cons]
        push_cast
        omega
    have h0 := main s 0
    have e1 : (((0 : Nat) : Int) + 1) = (1 : Int) := by norm_num
    have e2 : (if ((0 : Nat) : Int) < 2 then Continue else Satisfied) = Continue := by
      norm_num
    rw [e1, e2] at h0
    unfold matchC
    rw [show (Repeat 2 none).init = (EvalSt.intSt 1, Continue) from rfl]
    rw [show (Repeat 2 none).test = repeatTest 2 none from rfl]
    rw [show ((EvalSt.intSt 1, Continue) : EvalSt × Verdict).1 = EvalSt.intSt 1 from rfl]
    rw [show ((EvalSt.intSt 1, Continue) : EvalSt × Verdict).2 = Continue from rfl]
    rw [h0]
    rw [decide_eq_decide]
    push_cast
    omega

/-- Witness for C6 at `min = 0`, `max = 1` over a three-token stream. -/
theorem repeat_count_policy_witness :
    (0 : Int) ≤ 1 ∧
    runCon (Repeat 0 (some 1)) (Repeat 0 (some 1)).init
        [PyVal.int 9, PyVal.int 9, PyVal.int 9]
      = (.intSt (countState 1 ([PyVal.int 9, PyVal.int 9, PyVal.int 9] : List PyVal).length),
         countPolicy 0 (some 1) ([PyVal.int 9, PyVal.int 9, PyVal.int 9] : List PyVal).length) :=
  ⟨by decide, repeat_count_policy.1 0 1 (by decide) [PyVal.int 9, PyVal.int 9, PyVal.int 9]⟩

/-! `Or(CountRange(1,1), CountRange(3,4))`: the two counters evolve in
lockstep with the consumed count, so the run is a function of the
length alone. -/

/-- The pair of counter states of the two `Repeat` children after `c`
tokens: the first saturates at 2, the second at 5. -/
def orDemoSt (c : Nat) : EvalSt :=
  .children [.intSt ((min (c + 1) 2 : Nat) : Int), .intSt ((min (c + 1) 5 : Nat) : Int)]

/-- The OR-combined verdict after `c` tokens. -/
def orDemoV (c : Nat) : Verdict :=
  if c = 0 then Continue
  else if c = 1 then Satisfied
  else if c = 2 then Continue
  else if c = 3 then Satisfied
  else if c = 4 then Matching
  else Invalid

lemma orDemo_step (c : Nat) (hc : c ≤ 3) (t : PyVal) :
    (OrC [Repeat 1 (some 1), Repeat 3 (some 4)]).test (orDemoSt c) t
      = (orDemoSt (c + 1), orDemoV (c + 1)) := by
  interval_cases c <;> rfl

lemma orDemo_loop : ∀ (ts : List PyVal) (c : Nat), c ≤ 4 →
    (matchLoop (OrC [Repeat 1 (some 1), Repeat 3 (some 4)]).test
        (orDemoSt c) (orDemoV c) ts).matc
      = decide (c + ts.length = 1 ∨ c + ts.length = 3 ∨ c + ts.length = 4) := by
  intro ts
  induction ts with
  | nil =>
    intro c hc
    rw [matchLoop_nil]
    interval_cases c <;> rfl
  | cons t ts ih =>
    intro c hc
    rw [matchLoop_cons]
    by_cases h4 : c ≤ 3
    · have hcont : (orDemoV c).cont = true := by interval_cases c <;> rfl
      rw [if_pos hcont, orDemo_step c h4 t]
      rw [show ((orDemoSt (c + 1), orDemoV (c + 1)) : EvalSt × Verdict).1 = orDemoSt (c + 1)
        from rfl]
      rw [show ((orDemoSt (c + 1), orDemoV (c + 1)) : EvalSt × Verdict).2 = orDemoV (c + 1)
        from rfl]
      rw [ih (c + 1) (by omega)]
      rw [decide_eq_decide]
      simp only [List.length_cons]
      omega
    · have hc4 : c = 4 := by omega
      subst hc4
      rw [if_neg (by decide : ¬(orDemoV 4).cont = true)]
      simp only [Invalid_matc]
      symm
      simp only [decide_eq_false_iff_not, List.length_cons]
      omega

/-- C7: `matches(Or(CountRange(1,1), CountRange(3,4)), s)` is true
exactly when the length of `s` is 1, 3 or 4. -/
theorem or_countrange_lengths (s : List PyVal) :
    matchC (OrC [Repeat 1 (some 1), Repeat 3 (some 4)]) s
      = decide (s.length = 1 ∨ s.length = 3 ∨ s.length = 4) := by
  have h := orDemo_loop s 0 (by omega)
  unfold matchC
  rw [show (OrC [Repeat 1 (some 1), Repeat 3 (some 4)]).init.1 = orDemoSt 0 from rfl]
  rw [show (OrC [Repeat 1 (some 1), Repeat 3 (some 4)]).init.2 = orDemoV 0 from rfl]
  rw [h, decide_eq_decide]
  omega

/-! The fate of one constraint instance living inside a Group path. -/

/-- The instance of a constraint fed the given tokens under the Group
path discipline: the result is `none` once the path would have been
discarded (a verdict without CONTINUE while tokens remain, or a step
that returns Invalid); otherwise the surviving state and verdict. -/
def trail (c : Con) : EvalSt → Verdict → List PyVal → Option (EvalSt × Verdict)
  | st, v, [] => some (st, v)
  | st, v, t :: ts =>
    if v.cont then
      let r := c.test st t
      if r.2 = Invalid then none else trail c r.1 r.2 ts
    else none

/-- `trail` starting from a fresh instance. -/
def trailI (c : Con) (ts : List PyVal) : Option (EvalSt × Verdict) :=
  trail c c.init.1 c.init.2 ts

lemma trail_nil (c : Con) (st : EvalSt) (v : Verdict) : trail c st v [] = some (st, v) := rfl

lemma trail_cons (c : Con) (st : EvalSt) (v : Verdict) (t : PyVal) (ts : List PyVal) :
    trail c st v (t :: ts)
      = if v.cont then
          (if (c.test st t).2 = Invalid then none
           else trail c (c.test st t).1 (c.test st t).2 ts)
        else none := rfl

lemma trail_append (c : Con) (xs ys : List PyVal) : ∀ (st : EvalSt) (v : Verdict),
    trail c st v (xs ++ ys) = (trail c st v xs).bind (fun p => trail c p.1 p.2 ys) := by
  induction xs with
  | nil =>
    intro st v
    rfl
  | cons x xs ih =>
    intro st v
    rw [List.cons_append, trail_cons, trail_cons]
    by_cases hv : v.cont = true
    · rw [if_pos hv, if_pos hv]
      by_cases hr : (c.test st x).2 = Invalid
      · rw [if_pos hr, if_pos hr]
        rfl
      · rw [if_neg hr, if_neg hr, ih]
    · rw [if_neg hv, if_neg hv]
      rfl

lemma matchLoop_eq_trail (c : Con) : ∀ (ts : List PyVal) (st : EvalSt) (v : Verdict),
    (matchLoop c.test st v ts).matc
      = ((trail c st v ts).map (fun p => p.2.matc)).getD false := by
  intro ts
  induction ts with
  | nil =>
    intro st v
    rfl
  | cons t ts ih =>
    intro st v
    rw [matchLoop_cons, trail_cons]
    by_cases hv : v.cont = true
    · rw [if_pos hv, if_pos hv]
      by_cases hr : (c.test st t).2 = Invalid
      · rw [if_pos hr]
        have : matchLoop c.test (c.test st t).1 (c.test st t).2 ts = Invalid := by
          rw [hr]
          exact matchLoop_invalid c.test (c.test st t).1 ts
        rw [this]
        rfl
      · rw [if_neg hr]
        exact ih (c.test st t).1 (c.test st t).2
    · rw [if_neg hv, if_neg hv]
      rfl

lemma matchC_eq_trail (c : Con) (ts : List PyVal) :
    matchC c ts = ((trailI c ts).map (fun p => p.2.matc)).getD false :=
  matchLoop_eq_trail c ts c.init.1 c.init.2

lemma matchC_iff_trail (c : Con) (ts : List PyVal) :
    matchC c ts = true ↔ ∃ p, trailI c ts = some p ∧ p.2.matc = true := by
  rw [matchC_eq_trail]
  cases h : trailI c ts with
  | none => simp
  | some p => simp

/-! The per-path verdict contribution and the OR-reduction. -/

lemma pathVerdict_cont (p : GPath) : (pathVerdict p).cont = (p.cV.cont || p.mV.cont) := by
  simp [pathVerdict, Verdict.inter, Verdict.union, Continue, Matching]

lemma pathVerdict_matc (p : GPath) : (pathVerdict p).matc = (p.cV.matc && p.mV.matc) := by
  simp [pathVerdict, Verdict.inter, Verdict.union, Continue, Matching]

lemma groupVerdict_foldl (ps : List GPath) : ∀ acc : Verdict,
    ps.foldl (fun v p => v.union (pathVerdict p)) acc
      = ⟨acc.cont || ps.any (fun p => (pathVerdict p).cont),
         acc.matc || ps.any (fun p => (pathVerdict p).matc)⟩ := by
  induction ps with
  | nil =>
    intro acc
    cases acc
    simp
  | cons p ps ih =>
    intro acc
    rw [List.foldl_cons, ih]
    simp [Verdict.union, Bool.or_assoc]

lemma groupVerdict_cont (ps : List GPath) :
    (groupVerdict ps).cont = ps.any (fun p => (pathVerdict p).cont) := by
  rw [groupVerdict, groupVerdict_foldl]
  simp [Invalid]

lemma groupVerdict_matc (ps : List GPath) :
    (groupVerdict ps).matc = ps.any (fun p => (pathVerdict p).matc) := by
  rw [groupVerdict, groupVerdict_foldl]
  simp [Invalid]

lemma groupVerdict_cont_of_mV (ps : List GPath) (hne : ps ≠ [])
    (h : ∀ p ∈ ps, p.mV.cont = true) : (groupVerdict ps).cont = true := by
  rw [groupVerdict_cont]
  cases ps with
  | nil => exact absurd rfl hne
  | cons p ps =>
    rw [List.any_cons]
    have := h p (List.mem_cons_self p ps)
    rw [pathVerdict_cont, this]
    simp

lemma groupVerdict_ne_invalid_of_mV (ps : List GPath) (hne : ps ≠ [])
    (h : ∀ p ∈ ps, p.mV.cont = true) : groupVerdict ps ≠ Invalid := by
  intro hinv
  have := groupVerdict_cont_of_mV ps hne h
  rw [hinv] at this
  exact Bool.false_ne_true this

/-! Let-free restatements of the Group engine, used for rewriting. -/

lemma contPath_char (cs : List Con) (p : GPath) (tok : PyVal) :
    contPath cs p tok
      = if p.cV.cont then
          (match p.cId with
           | some i =>
             (match cs.get? i with
              | some c =>
                if (c.test p.cSt tok).2 = Invalid then []
                else [⟨p.mSt, p.mV, (c.test p.cSt tok).1, (c.test p.cSt tok).2, p.cId⟩]
              | none => [])
           | none => [])
        else [] := rfl

lemma spawnOne_char (meta : Con) (p : GPath) (tok : PyVal) (i : Nat) (c : Con) :
    spawnOne meta p tok i c
      = if p.cId = some i ∧ isNoneSt p.cSt then []
        else if (meta.test p.mSt (.int i)).2 = Invalid then []
        else if c.init.2.cont = false then []
        else if (c.test c.init.1 tok).2 = Invalid then []
        else [⟨(meta.test p.mSt (.int i)).1, (meta.test p.mSt (.int i)).2,
              (c.test c.init.1 tok).1, (c.test c.init.1 tok).2, some i⟩] := rfl

lemma spawnFrom_nil (meta : Con) (p : GPath) (tok : PyVal) (i : Nat) :
    spawnFrom meta p tok i [] = [] := rfl

lemma spawnFrom_cons (meta : Con) (p : GPath) (tok : PyVal) (i : Nat) (c : Con)
    (rest : List Con) :
    spawnFrom meta p tok i (c :: rest)
      = spawnOne meta p tok i c ++ spawnFrom meta p tok (i + 1) rest := rfl

lemma stepPath_char (cs : List Con) (meta : Con) (tok : PyVal) (p : GPath) :
    stepPath cs meta tok p
      = contPath cs p tok ++ (if p.cV.matc then spawnFrom meta p tok 0 cs else []) := rfl

lemma groupStepPaths_eq (cs : List Con) (meta : Con) (ps : List GPath) (tok : PyVal) :
    groupStepPaths cs meta ps tok = ps.flatMap (stepPath cs meta tok) := rfl

lemma groupTest_paths (cs : List Con) (meta : Con) (ps : List GPath) (tok : PyVal) :
    groupTest cs meta (.paths ps) tok
      = if groupVerdict (groupStepPaths cs meta ps tok) = Invalid then (.paths ps, Invalid)
        else (.paths (groupStepPaths cs meta ps tok),
              groupVerdict (groupStepPaths cs meta ps tok)) := rfl

/-! The path bookkeeping of `Sequence [a, b]`: one path continuing the
first child from the start of the stream, plus one path for every split
point, continuing the second child over the suffix. -/

/-- A path running the first child of a two-child sequence. -/
def render0 (r : EvalSt × Verdict) : GPath := ⟨.intSt 1, Continue, r.1, r.2, some 0⟩

/-- A path running the second child of a two-child sequence. -/
def render1 (r : EvalSt × Verdict) : GPath := ⟨.intSt 2, Satisfied, r.1, r.2, some 1⟩

/-- One token of the Group path discipline applied to a surviving
instance. -/
def stepOpt (c : Con) (t : PyVal) (x : EvalSt × Verdict) : Option (EvalSt × Verdict) :=
  if x.2.cont then (if (c.test x.1 t).2 = Invalid then none else some (c.test x.1 t))
  else none

lemma trail_snoc (c : Con) (st : EvalSt) (v : Verdict) (ts : List PyVal) (t : PyVal) :
    trail c st v (ts ++ [t]) = (trail c st v ts).bind (stepOpt c t) := by
  rw [trail_append]
  rfl

lemma trailI_snoc (c : Con) (ts : List PyVal) (t : PyVal) :
    trailI c (ts ++ [t]) = (trailI c ts).bind (stepOpt c t) := by
  unfold trailI
  exact trail_snoc c c.init.1 c.init.2 ts t

lemma trailI_single (c : Con) (t : PyVal) :
    trailI c [t] = stepOpt c t (c.init.1, c.init.2) := by
  have := trailI_snoc c [] t
  rw [show ([] ++ [t] : List PyVal) = [t] from rfl] at this
  rw [this]
  rfl

/-- The live path of the first child after the whole stream so far. -/
def mkA (a : Con) (ts : List PyVal) : List GPath :=
  (trailI a ts).elim [] (fun r => [render0 r])

/-- The live path of the second child for the split `ts = p ++ q`:
present when the first child accepted the prefix and the second child's
fresh instance survived the suffix. -/
def mkB (a b : Con) (p q : List PyVal) : Option GPath :=
  (trailI a p).elim none
    (fun x => if x.2.matc then (trailI b q).map render1 else none)

/-- The second-child paths, newest split first. -/
def seqBs (a b : Con) (ts : List PyVal) : List GPath :=
  ((List.range ts.length).reverse).filterMap
    (fun j => if j = 0 then none else mkB a b (ts.take j) (ts.drop j))

/-- The whole path set of `Sequence [a, b]` after the tokens `ts`. -/
def seqPS (a b : Con) (ts : List PyVal) : List GPath :=
  if ts.isEmpty then [⟨.intSt 0, Continue, .pv .none, Matching, none⟩]
  else mkA a ts ++ seqBs a b ts

lemma stepPath_seed (a b : Con) (t : PyVal) :
    stepPath [a, b] (RangeC 0 2 1) t ⟨.intSt 0, Continue, .pv .none, Matching, none⟩
      = mkA a [t] := by
  rw [show mkA a [t] = (stepOpt a t (a.init.1, a.init.2)).elim [] (fun r => [render0 r])
    from by rw [mkA, trailI_single]]
  by_cases hc : a.init.2.cont <;>
    by_cases hr : (a.test a.init.1 t).2 = Invalid <;>
      (norm_num [stepPath_char, contPath_char, spawnOne_char, spawnFrom_cons, spawnFrom_nil,
        stepOpt, render0, GPath.cV, GPath.cId, GPath.cSt, GPath.mSt, GPath.mV,
        isNoneSt, RangeC, rangeTest, hc, hr] <;> (first | rfl | decide | simp))

lemma stepPath_A (a b : Con) (ts : List PyVal) (t : PyVal) (x : EvalSt × Verdict)
    (hx : trailI a ts = some x) :
    stepPath [a, b] (RangeC 0 2 1) t (render0 x)
      = mkA a (ts ++ [t]) ++ (mkB a b ts [t]).toList := by
  have hA : mkA a (ts ++ [t]) = (stepOpt a t x).elim [] (fun r => [render0 r]) := by
    rw [mkA, trailI_snoc, hx]
    rfl
  have hB : mkB a b ts [t]
      = if x.2.matc then (stepOpt b t (b.init.1, b.init.2)).map render1 else none := by
    rw [mkB, hx, trailI_single]
    rfl
  rw [hA, hB]
  by_cases hxc : x.2.cont <;> by_cases hxm : x.2.matc <;> by_cases hsk : isNoneSt x.1 <;>
    by_cases hbc : b.init.2.cont <;>
      by_cases hxr : (a.test x.1 t).2 = Invalid <;>
        by_cases hbr : (b.test b.init.1 t).2 = Invalid <;>
          (norm_num [stepPath_char, contPath_char, spawnOne_char, spawnFrom_cons,
            spawnFrom_nil, stepOpt, render0, render1, GPath.cV, GPath.cId, GPath.cSt,
            GPath.mSt, GPath.mV, RangeC, rangeTest, hxc, hxm, hsk, hbc, hxr, hbr] <;>
            (first | rfl | decide | simp))

lemma stepPath_B (a b : Con) (t : PyVal) (y : EvalSt × Verdict) :
    stepPath [a, b] (RangeC 0 2 1) t (render1 y)
      = ((stepOpt b t y).map render1).toList := by
  by_cases hyc : y.2.cont <;> by_cases hym : y.2.matc <;> by_cases hsk : isNoneSt y.1 <;>
    by_cases hyr : (b.test y.1 t).2 = Invalid <;>
      (norm_num [stepPath_char, contPath_char, spawnOne_char, spawnFrom_cons, spawnFrom_nil,
        stepOpt, render1, GPath.cV, GPath.cId, GPath.cSt, GPath.mSt, GPath.mV,
        RangeC, rangeTest, hyc, hym, hsk, hyr] <;> (first | rfl | decide | simp))

lemma mkA_none_iff (a : Con) (ts : List PyVal) : mkA a ts = [] ↔ trailI a ts = none := by
  unfold mkA
  cases trailI a ts <;> simp [Option.elim]

lemma mkB_some (a b : Con) (p q : List PyVal) (g : GPath) (h : mkB a b p q = some g) :
    ∃ x y, trailI a p = some x ∧ x.2.matc = true ∧ trailI b q = some y ∧ g = render1 y := by
  unfold mkB at h
  cases hx : trailI a p with
  | none =>
    rw [hx] at h
    exact absurd h (by simp [Option.elim])
  | some x =>
    rw [hx] at h
    simp only [Option.elim] at h
    by_cases hm : x.2.matc
    · rw [if_pos hm] at h
      cases hy : trailI b q with
      | none =>
        rw [hy] at h
        exact absurd h (by simp)
      | some y =>
        rw [hy] at h
        simp only [Option.map_some'] at h
        exact ⟨x, y, rfl, hm, rfl, (Option.some_inj.mp h).symm⟩
    · rw [if_neg hm] at h
      exact absurd h (by simp)

lemma mkB_of_parts (a b : Con) (p q : List PyVal) (x y : EvalSt × Verdict)
    (hx : trailI a p = some x) (hxm : x.2.matc = true) (hy : trailI b q = some y) :
    mkB a b p q = some (render1 y) := by
  unfold mkB
  rw [hx]
  simp only [Option.elim]
  rw [if_pos hxm, hy]
  rfl

lemma mkB_snoc (a b : Con) (p q : List PyVal) (t : PyVal) :
    mkB a b p (q ++ [t])
      = (mkB a b p q).bind (fun g => (stepOpt b t (g.cSt, g.cV)).map render1) := by
  unfold mkB
  cases hx : trailI a p with
  | none => rfl
  | some x =>
    simp only [Option.elim]
    by_cases hm : x.2.matc
    · simp only [if_pos hm]
      rw [trailI_snoc]
      cases hy : trailI b q with
      | none => rfl
      | some y =>
        rw [Option.some_bind, Option.map_some', Option.some_bind]
        show Option.map render1 (stepOpt b t y)
          = Option.map render1 (stepOpt b t ((render1 y).cSt, (render1 y).cV))
        rfl
    · simp only [if_neg hm]
      rfl

/-- Stepping the rendered elements of a filterMap: if every present
element steps to the corresponding element of the successor filterMap
(and absences persist), the flatMap of the step is the successor. -/
lemma filterMap_flatMap_step (js : List Nat) (F G : Nat → Option GPath)
    (H : GPath → List GPath)
    (h : ∀ j ∈ js, (∀ p, F j = some p → H p = (G j).toList) ∧ (F j = none → G j = none)) :
    (js.filterMap F).flatMap H = js.filterMap G := by
  induction js with
  | nil => rfl
  | cons j js ih =>
    have hj := h j (List.mem_cons_self j js)
    have hrest := fun i hi => h i (List.mem_cons_of_mem j hi)
    cases hF : F j with
    | none =>
      rw [List.filterMap_cons_none hF, List.filterMap_cons, hj.2 hF]
      exact ih hrest
    | some p =>
      rw [List.filterMap_cons_some hF, List.flatMap_cons, hj.1 p hF, ih hrest,
        List.filterMap_cons]
      cases hG : G j with
      | none => simp
      | some g => simp

lemma seqBs_nil_of_single (a b : Con) (t : PyVal) : seqBs a b [t] = [] := by
  unfold seqBs
  rfl

lemma seqBs_snoc (a b : Con) (ts : List PyVal) (t : PyVal) (hne : ts ≠ []) :
    seqBs a b (ts ++ [t])
      = (mkB a b ts [t]).toList
        ++ ((List.range ts.length).reverse).filterMap
             (fun j => if j = 0 then none
                       else mkB a b ((ts ++ [t]).take j) ((ts ++ [t]).drop j)) := by
  unfold seqBs
  have hlen : (ts ++ [t]).length = ts.length + 1 := by
    rw [List.length_append]
    rfl
  rw [hlen, List.range_succ, List.reverse_append,
    show ([ts.length] : List Nat).reverse = [ts.length] from rfl, List.singleton_append]
  have hk : ¬ts.length = 0 := fun h0 => hne (List.length_eq_zero.mp h0)
  rw [List.filterMap_cons, if_neg hk, List.take_left, List.drop_left]
  cases hB : mkB a b ts [t] with
  | none => simp
  | some g => simp

lemma seqBs_flatMap_step (a b : Con) (ts : List PyVal) (t : PyVal) :
    (seqBs a b ts).flatMap (stepPath [a, b] (RangeC 0 2 1) t)
      = ((List.range ts.length).reverse).filterMap
          (fun j => if j = 0 then none
                    else mkB a b ((ts ++ [t]).take j) ((ts ++ [t]).drop j)) := by
  unfold seqBs
  apply filterMap_flatMap_step
  intro j hj
  have hjlt : j < ts.length := List.mem_range.mp (List.mem_reverse.mp hj)
  have htake : (ts ++ [t]).take j = ts.take j :=
    List.take_append_of_le_length (Nat.le_of_lt hjlt)
  have hdrop : (ts ++ [t]).drop j = ts.drop j ++ [t] :=
    List.drop_append_of_le_length (Nat.le_of_lt hjlt)
  constructor
  · intro p hp
    by_cases hj0 : j = 0
    · rw [if_pos hj0] at hp
      exact absurd hp (by simp)
    · rw [if_neg hj0] at hp
      obtain ⟨x, y, hx, hxm, hy, hpy⟩ := mkB_some a b (ts.take j) (ts.drop j) p hp
      rw [if_neg hj0, htake, hdrop, mkB_snoc, hp, Option.some_bind, hpy]
      rw [stepPath_B a b t y]
      rfl
  · intro hp
    by_cases hj0 : j = 0
    · rw [if_pos hj0]
    · rw [if_neg hj0] at hp
      rw [if_neg hj0, htake, hdrop, mkB_snoc, hp, Option.none_bind]

lemma groupStep_seqPS (a b : Con) (ts : List PyVal) (t : PyVal) :
    groupStepPaths [a, b] (RangeC 0 2 1) (seqPS a b ts) t = seqPS a b (ts ++ [t]) := by
  by_cases hts : ts = []
  · subst hts
    rw [groupStepPaths_eq,
      show seqPS a b [] = [⟨.intSt 0, Continue, .pv .none, Matching, none⟩] from rfl,
      List.flatMap_cons, List.flatMap_nil, List.append_nil, stepPath_seed a b t,
      show ([] ++ [t] : List PyVal) = [t] from rfl,
      show seqPS a b [t] = mkA a [t] ++ seqBs a b [t] from rfl,
      seqBs_nil_of_single, List.append_nil]
  · have hE : ¬(ts.isEmpty = true) := by
      simpa [List.isEmpty_iff] using hts
    have hE2 : ¬((ts ++ [t]).isEmpty = true) := by
      simp [List.isEmpty_iff]
    rw [groupStepPaths_eq, show seqPS a b ts = mkA a ts ++ seqBs a b ts from by
      unfold seqPS
      rw [if_neg hE]]
    rw [show seqPS a b (ts ++ [t]) = mkA a (ts ++ [t]) ++ seqBs a b (ts ++ [t]) from by
      unfold seqPS
      rw [if_neg hE2]]
    rw [List.flatMap_append, seqBs_flatMap_step a b ts t, seqBs_snoc a b ts t hts]
    cases hx : trailI a ts with
    | none =>
      have h1 : mkA a ts = [] := (mkA_none_iff a ts).mpr hx
      have h2 : mkA a (ts ++ [t]) = [] := by
        rw [mkA, trailI_snoc, hx, Option.none_bind]
        rfl
      have h3 : mkB a b ts [t] = none := by
        unfold mkB
        rw [hx]
        rfl
      rw [h1, h2, h3]
      rfl
    | some x =>
      have h1 : mkA a ts = [render0 x] := by
        rw [mkA, hx]
        rfl
      rw [h1, List.flatMap_cons, List.flatMap_nil, List.append_nil, stepPath_A a b ts t x hx,
        List.append_assoc]

lemma seqPS_mV (a b : Con) (ts : List PyVal) :
    ∀ p ∈ seqPS a b ts, p.mV.cont = true := by
  intro p hp
  unfold seqPS at hp
  by_cases hE : ts.isEmpty = true
  · rw [if_pos hE] at hp
    rcases List.mem_singleton.mp hp with rfl
    rfl
  · rw [if_neg hE] at hp
    rcases List.mem_append.mp hp with hA | hB
    · unfold mkA at hA
      cases hx : trailI a ts with
      | none =>
        rw [hx] at hA
        exact absurd hA (by simp [Option.elim])
      | some x =>
        rw [hx] at hA
        simp only [Option.elim] at hA
        rcases List.mem_singleton.mp hA with rfl
        rfl
    · unfold seqBs at hB
      obtain ⟨j, _, hsome⟩ := List.mem_filterMap.mp hB
      by_cases hj0 : j = 0
      · rw [if_pos hj0] at hsome
        exact absurd hsome (by simp)
      · rw [if_neg hj0] at hsome
        obtain ⟨x, y, _, _, _, hpy⟩ := mkB_some a b _ _ p hsome
        rw [hpy]
        rfl

lemma seqPS_nil_ne (a b : Con) : seqPS a b [] ≠ [] := by
  unfold seqPS
  simp

lemma seqPS_empty_extend (a b : Con) (ts : List PyVal) (t : PyVal)
    (h : (seqPS a b ts).isEmpty = true) : (seqPS a b (ts ++ [t])).isEmpty = true := by
  have hts : ts ≠ [] := by
    intro h0
    subst h0
    exact seqPS_nil_ne a b (List.isEmpty_iff.mp h)
  have hE : ¬(ts.isEmpty = true) := by
    simpa [List.isEmpty_iff] using hts
  have hsplit : mkA a ts ++ seqBs a b ts = [] := by
    have := List.isEmpty_iff.mp h
    unfold seqPS at this
    rw [if_neg hE] at this
    exact this
  have hmkA : mkA a ts = [] := by
    rcases List.append_eq_nil.mp hsplit with ⟨h1, _⟩
    exact h1
  have hBs : seqBs a b ts = [] := by
    rcases List.append_eq_nil.mp hsplit with ⟨_, h2⟩
    exact h2
  have hx : trailI a ts = none := (mkA_none_iff a ts).mp hmkA
  rw [List.isEmpty_iff]
  unfold seqPS
  rw [if_neg (by simp [List.isEmpty_iff] : ¬((ts ++ [t]).isEmpty = true))]
  have h2 : mkA a (ts ++ [t]) = [] := by
    rw [mkA, trailI_snoc, hx, Option.none_bind]
    rfl
  have h3 : seqBs a b (ts ++ [t]) = [] := by
    rw [seqBs_snoc a b ts t hts]
    have hnone : ∀ j ∈ (List.range ts.length).reverse,
        (if j = 0 then none else mkB a b (ts.take j) (ts.drop j)) = (none : Option GPath) := by
      have := List.filterMap_eq_nil.mp (by
        unfold seqBs at hBs
        exact hBs)
      exact this
    have hmkB : mkB a b ts [t] = none := by
      unfold mkB
      rw [hx]
      rfl
    rw [hmkB]
    rw [show ((none : Option GPath)).toList = [] from rfl, List.nil_append]
    rw [List.filterMap_eq_nil]
    intro j hj
    have hjlt : j < ts.length := List.mem_range.mp (List.mem_reverse.mp hj)
    by_cases hj0 : j = 0
    · rw [if_pos hj0]
    · rw [if_neg hj0,
        List.take_append_of_le_length (Nat.le_of_lt hjlt),
        List.drop_append_of_le_length (Nat.le_of_lt hjlt), mkB_snoc]
      have := hnone j hj
      rw [if_neg hj0] at this
      rw [this, Option.none_bind]
  rw [h2, h3]
  rfl

lemma seq_trail_invariant (a b : Con) (ts : List PyVal) :
    trail (Group [a, b] (RangeC 0 2 1)) (Group [a, b] (RangeC 0 2 1)).init.1
        (Group [a, b] (RangeC 0 2 1)).init.2 ts
      = if (seqPS a b ts).isEmpty then none
        else some (.paths (seqPS a b ts), groupVerdict (seqPS a b ts)) := by
  induction ts using List.reverseRecOn with
  | nil =>
    rw [trail_nil, if_neg (by simp [seqPS] : ¬((seqPS a b []).isEmpty = true))]
    rfl
  | append_singleton ts t ih =>
    rw [trail_snoc, ih]
    by_cases hE : (seqPS a b ts).isEmpty = true
    · rw [if_pos hE, Option.none_bind, if_pos (seqPS_empty_extend a b ts t hE)]
    · rw [if_neg hE, Option.some_bind]
      have hne : seqPS a b ts ≠ [] := fun h0 => hE (by simp [h0])
      have hgv : (groupVerdict (seqPS a b ts)).cont = true :=
        groupVerdict_cont_of_mV _ hne (seqPS_mV a b ts)
      unfold stepOpt
      rw [if_pos (by exact hgv)]
      rw [show (Group [a, b] (RangeC 0 2 1)).test
            ((EvalSt.paths (seqPS a b ts), groupVerdict (seqPS a b ts))).1 t
          = groupTest [a, b] (RangeC 0 2 1) (.paths (seqPS a b ts)) t from rfl,
        groupTest_paths, groupStep_seqPS a b ts t]
      by_cases hE2 : (seqPS a b (ts ++ [t])).isEmpty = true
      · have : seqPS a b (ts ++ [t]) = [] := List.isEmpty_iff.mp hE2
        rw [if_pos (show groupVerdict (seqPS a b (ts ++ [t])) = Invalid from by rw [this]; rfl),
          if_pos hE2]
        rfl
      · have hne2 : seqPS a b (ts ++ [t]) ≠ [] :=
          fun h0 => hE2 (by simp [h0])
        have hgv2 : groupVerdict (seqPS a b (ts ++ [t])) ≠ Invalid :=
          groupVerdict_ne_invalid_of_mV _ hne2 (seqPS_mV a b (ts ++ [t]))
        rw [if_neg hgv2, if_neg hE2]
        rw [if_neg (by exact hgv2)]

lemma seqBs_mem_of_split (a b : Con) (p q : List PyVal) (hp : p ≠ []) (hq : q ≠ [])
    (ha : matchC a p = true) (hb : matchC b q = true) :
    ∃ g ∈ seqBs a b (p ++ q), (g.cV.matc && g.mV.matc) = true := by
  obtain ⟨x, hx, hxm⟩ := (matchC_iff_trail a p).mp ha
  obtain ⟨y, hy, hym⟩ := (matchC_iff_trail b q).mp hb
  refine ⟨render1 y, ?_, ?_⟩
  · unfold seqBs
    apply List.mem_filterMap.mpr
    refine ⟨p.length, ?_, ?_⟩
    · rw [List.mem_reverse, List.mem_range, List.length_append]
      cases q with
      | nil => exact absurd rfl hq
      | cons u us =>
        rw [List.length_cons]
        omega
    · have hj0 : ¬(p.length = 0) := fun h => hp (List.length_eq_zero.mp h)
      rw [if_neg hj0, List.take_left, List.drop_left]
      exact mkB_of_parts a b p q x y hx hxm hy
  · rw [show (render1 y).cV = y.2 from rfl, show (render1 y).mV = Satisfied from rfl, hym]
    rfl

lemma split_of_seqBs_mem (a b : Con) (s : List PyVal) (g : GPath)
    (hg : g ∈ seqBs a b s) (hm : (g.cV.matc && g.mV.matc) = true) :
    ∃ p q : List PyVal, s = p ++ q ∧ p ≠ [] ∧ q ≠ [] ∧
      matchC a p = true ∧ matchC b q = true := by
  unfold seqBs at hg
  obtain ⟨j, hj, hsome⟩ := List.mem_filterMap.mp hg
  have hjlt : j < s.length := List.mem_range.mp (List.mem_reverse.mp hj)
  by_cases hj0 : j = 0
  · rw [if_pos hj0] at hsome
    exact absurd hsome (by simp)
  · rw [if_neg hj0] at hsome
    obtain ⟨x, y, hx, hxm, hy, hgy⟩ := mkB_some a b _ _ g hsome
    refine ⟨s.take j, s.drop j, (List.take_append_drop j s).symm, ?_, ?_, ?_, ?_⟩
    · intro h0
      rcases List.take_eq_nil_iff.mp h0 with h | h
      · exact hj0 h
      · rw [h] at hjlt
        exact absurd hjlt (by simp)
    · intro h0
      have := List.drop_eq_nil_iff_le.mp h0
      omega
    · exact (matchC_iff_trail a _).mpr ⟨x, hx, hxm⟩
    · refine (matchC_iff_trail b _).mpr ⟨y, hy, ?_⟩
      rw [hgy, show (render1 y).cV = y.2 from rfl] at hm
      cases h2 : y.2.matc with
      | true => rfl
      | false =>
        rw [h2] at hm
        exact absurd hm (by simp)

lemma seq_matchC_eq (a b : Con) (s : List PyVal) :
    matchC (Sequence [a, b]) s
      = if (seqPS a b s).isEmpty then false else (groupVerdict (seqPS a b s)).matc := by
  rw [show Sequence [a, b] = Group [a, b] (RangeC 0 2 1) from rfl, matchC_eq_trail]
  unfold trailI
  rw [seq_trail_invariant a b s]
  by_cases hE : (seqPS a b s).isEmpty = true
  · rw [if_pos hE, if_pos hE]
    rfl
  · rw [if_neg hE, if_neg hE]
    rfl

lemma seq_two_split_iff (a b : Con) (s : List PyVal) :
    matchC (Sequence [a, b]) s = true ↔
      ∃ p q : List PyVal, s = p ++ q ∧ p ≠ [] ∧ q ≠ [] ∧
        matchC a p = true ∧ matchC b q = true := by
  rw [seq_matchC_eq]
  by_cases hE : (seqPS a b s).isEmpty = true
  · rw [if_pos hE]
    constructor
    · intro h
      exact absurd h (by simp)
    · rintro ⟨p, q, rfl, hp, hq, ha, hb⟩
      exfalso
      obtain ⟨g, hg, _⟩ := seqBs_mem_of_split a b p q hp hq ha hb
      have hsne : (p ++ q) ≠ [] := by
        cases p with
        | nil => exact absurd rfl hp
        | cons u us => simp
      have hnil : seqPS a b (p ++ q) = [] := List.isEmpty_iff.mp hE
      unfold seqPS at hnil
      rw [if_neg (by simpa [List.isEmpty_iff] using hsne)] at hnil
      rcases List.append_eq_nil.mp hnil with ⟨_, hBs⟩
      rw [hBs] at hg
      exact absurd hg (List.not_mem_nil g)
  · rw [if_neg hE]
    by_cases hs : s = []
    · subst hs
      rw [show seqPS a b [] = [⟨.intSt 0, Continue, .pv .none, Matching, none⟩] from rfl]
      constructor
      · intro h
        exact absurd h (by decide)
      · rintro ⟨p, q, hpq, hp, hq, _, _⟩
        cases p with
        | nil => exact absurd rfl hp
        | cons u us => simp at hpq
    · rw [show seqPS a b s = mkA a s ++ seqBs a b s from by
        unfold seqPS
        rw [if_neg (by simpa [List.isEmpty_iff] using hs)]]
      rw [groupVerdict_matc, List.any_append]
      have hAfalse : (mkA a s).any (fun p => (pathVerdict p).matc) = false := by
        unfold mkA
        cases trailI a s with
        | none => rfl
        | some x =>
          simp [Option.elim, pathVerdict_matc, render0, GPath.cV, GPath.mV]
      rw [hAfalse, Bool.false_or, List.any_eq_true]
      constructor
      · rintro ⟨g, hg, hm⟩
        exact split_of_seqBs_mem a b s g hg (by rwa [pathVerdict_matc] at hm)
      · rintro ⟨p, q, rfl, hp, hq, ha, hb⟩
        obtain ⟨g, hg, hm⟩ := seqBs_mem_of_split a b p q hp hq ha hb
        exact ⟨g, hg, by rwa [pathVerdict_matc]⟩

/-- The underscore-and-letters membership list of the claim's name
example. -/
def underscoreLetters : List PyVal :=
  .char '_' :: ("abcdefghijklmnopqrstuvwxyzABCDEFGHIJKLMNOPQRSTUVWXYZ".toList.map .char)

/-- The digit membership list of the claim's name example. -/
def digitChars : List PyVal := "0123456789".toList.map .char

/-- The claim's `a`: one token that is an underscore or a letter. -/
def firstCharCon : Con := AndC [Single, Member underscoreLetters]

/-- The claim's `b`: either another first-character or digits. -/
def alnumSuffixCon : Con := OrC [firstCharCon, Member digitChars]

/-- C1 counterexample: with `a = Any()` and `b = Null()` the one-token
stream `[0]` splits into the nonempty prefix `[0]` matching `a` and the
empty suffix matching `b`, yet `matches(Sequence(a, b), [0])` is false:
a spawned child is fed a token immediately, so the suffix can never be
empty, and the claim as stated fails. -/
theorem sequence_split_cex :
    ¬(matchC (Sequence [Any, Null]) [PyVal.int 0] = true ↔
      ∃ p q : List PyVal, [PyVal.int 0] = p ++ q ∧ p ≠ [] ∧
        matchC Any p = true ∧ matchC Null q = true) := by
  intro h
  have hsplit : matchC (Sequence [Any, Null]) [PyVal.int 0] = true :=
    h.mpr ⟨[PyVal.int 0], [], by simp, by simp, rfl, rfl⟩
  exact absurd hsplit (by decide)

/-- C1 amended: `matches(Sequence(a, b), s)` is true exactly when `s`
splits into a nonempty prefix matching `a` immediately followed by a
nonempty suffix matching `b` (the suffix must be nonempty because a
freshly spawned child is immediately fed a token); the claim's concrete
name examples hold as stated. -/
theorem sequence_split_characterisation :
    (∀ (a b : Con) (s : List PyVal),
      matchC (Sequence [a, b]) s = true ↔
        ∃ p q : List PyVal, s = p ++ q ∧ p ≠ [] ∧ q ≠ [] ∧
          matchC a p = true ∧ matchC b q = true) ∧
    matchC (Sequence [firstCharCon, alnumSuffixCon]) [.char '_', .char '1'] = true ∧
    matchC (Sequence [firstCharCon, alnumSuffixCon]) [.char '1', .char '_'] = false :=
  ⟨seq_two_split_iff, by decide, by decide⟩

/-! Bisimulation between `Sequence(c1..cn)` (meta = `Range(n)`) and the
spec's `Group(c1..cn, meta=CountRange(n,n))` with strict left-to-right
admission.  In both variants the meta state after `k` admissions is the
integer `k`; only the stored meta verdicts differ, and only in ways that
never change the accept/reject answer. -/

/-- The meta verdict `Range(n)` stores on a path with `k` admissions. -/
def vRm (n k : Nat) : Verdict := if k < n then Continue else Satisfied

/-- The meta verdict the strict `CountRange(n,n)` automaton stores. -/
def vSm (n k : Nat) : Verdict := if k < n then Continue else Matching

/-- One path of the `Range(n)` group and one of the strict group are
related when they agree on everything except the stored meta verdict,
which is the respective automaton's verdict at the same count `k`. -/
def RelP (n : Nat) (pR pS : GPath) : Prop :=
  ∃ (k : Nat) (cst : EvalSt) (cv : Verdict) (cid : Option Nat),
    1 ≤ k ∧ k ≤ n ∧ cv ≠ Invalid ∧
    pR = ⟨.intSt (k : Int), vRm n k, cst, cv, cid⟩ ∧
    pS = ⟨.intSt (k : Int), vSm n k, cst, cv, cid⟩

lemma vRm_cont (n k : Nat) : (vRm n k).cont = true := by
  unfold vRm
  split_ifs <;> rfl

lemma vRm_ne_invalid (n k : Nat) : vRm n k ≠ Invalid := by
  unfold vRm
  split_ifs <;> decide

lemma vSm_ne_invalid (n k : Nat) : vSm n k ≠ Invalid := by
  unfold vSm
  split_ifs <;> decide

lemma vRm_matc (n k : Nat) : (vRm n k).matc = decide (n ≤ k) := by
  unfold vRm
  by_cases h : k < n
  · rw [if_pos h, Continue_matc]
    symm
    rw [decide_eq_false_iff_not]
    omega
  · rw [if_neg h, Satisfied_matc]
    symm
    rw [decide_eq_true_eq]
    omega

lemma vSm_matc (n k : Nat) : (vSm n k).matc = decide (n ≤ k) := by
  unfold vSm
  by_cases h : k < n
  · rw [if_pos h, Continue_matc]
    symm
    rw [decide_eq_false_iff_not]
    omega
  · rw [if_neg h, Matching_matc]
    symm
    rw [decide_eq_true_eq]
    omega

lemma vSm_cont (n k : Nat) : (vSm n k).cont = decide (k < n) := by
  unfold vSm
  by_cases h : k < n
  · rw [if_pos h, Continue_cont]
    symm
    rw [decide_eq_true_eq]
    exact h
  · rw [if_neg h, Matching_cont]
    symm
    rw [decide_eq_false_iff_not]
    exact h

lemma metaR_step (n k i : Nat) :
    (RangeC 0 (n : Int) 1).test (.intSt (k : Int)) (.int (i : Int))
      = if i = k then (.intSt ((k + 1 : Nat) : Int), vRm n (k + 1))
        else (.intSt (k : Int), Invalid) := by
  have hcast : ((k : Int) + 1) = ((k + 1 : Nat) : Int) := by
    push_cast
    ring
  show rangeTest (n : Int) 1 (.intSt (k : Int)) (.int (i : Int)) = _
  unfold rangeTest vRm
  simp only [PyVal.int.injEq, Nat.cast_inj]
  by_cases hik : i = k
  · simp only [if_pos hik]
    by_cases hlt : (k : Int) < (n : Int) - 1
    · rw [if_pos hlt, if_pos (show k + 1 < n by omega), hcast]
    · rw [if_neg hlt, if_neg (show ¬(k + 1 < n) by omega), hcast]
  · simp only [if_neg hik]

lemma metaS_step (n k i : Nat) :
    (strictMeta n).test (.intSt (k : Int)) (.int (i : Int))
      = if i = k then (.intSt ((k + 1 : Nat) : Int),
          countPolicy (n : Int) (some (n : Int)) ((k + 1 : Nat) : Int))
        else (.intSt (k : Int), Invalid) := by
  have hcast : ((k : Int) + 1) = ((k + 1 : Nat) : Int) := by
    push_cast
    ring
  simp only [strictMeta, PyVal.int.injEq, Nat.cast_inj]
  by_cases hik : i = k
  · simp only [if_pos hik]
    rw [hcast]
  · simp only [if_neg hik]

lemma countPolicy_eq_vSm (n k : Nat) (h : k ≤ n) :
    countPolicy (n : Int) (some (n : Int)) ((k : Nat) : Int) = vSm n k := by
  unfold countPolicy vSm
  by_cases h1 : (k : Int) < (n : Int)
  · rw [if_pos h1, if_pos (show k < n by omega)]
  · rw [if_neg h1, if_neg (show ¬(k < n) by omega)]
    show (if (k : Int) < (n : Int) then Satisfied
          else if (k : Int) = (n : Int) then Matching else Invalid) = Matching
    rw [if_neg h1, if_pos (show (k : Int) = (n : Int) by omega)]

lemma forallTwo_append {R : GPath → GPath → Prop} {l1 l2 u1 u2 : List GPath}
    (h1 : List.Forall₂ R l1 l2) (h2 : List.Forall₂ R u1 u2) :
    List.Forall₂ R (l1 ++ u1) (l2 ++ u2) := by
  induction h1 with
  | nil => exact h2
  | cons hr _ ih => exact List.Forall₂.cons hr ih

lemma forallTwo_flatMap {R : GPath → GPath → Prop} {l1 l2 : List GPath}
    (h : List.Forall₂ R l1 l2) (f g : GPath → List GPath)
    (hfg : ∀ a b, R a b → List.Forall₂ R (f a) (g b)) :
    List.Forall₂ R (l1.flatMap f) (l2.flatMap g) := by
  induction h with
  | nil => exact List.Forall₂.nil
  | cons hr hrest ih => exact forallTwo_append (hfg _ _ hr) ih

lemma spawnFrom_rel (n : Nat) (t : PyVal) (k : Nat) (cst : EvalSt) (cv : Verdict)
    (cid : Option Nat) (hkn : k ≤ n) :
    ∀ (crest : List Con) (i : Nat), i + crest.length ≤ n →
    List.Forall₂ (RelP n)
      (spawnFrom (RangeC 0 (n : Int) 1) ⟨.intSt (k : Int), vRm n k, cst, cv, cid⟩ t i crest)
      (spawnFrom (strictMeta n) ⟨.intSt (k : Int), vSm n k, cst, cv, cid⟩ t i crest) := by
  intro crest
  induction crest with
  | nil =>
    intro i _
    exact List.Forall₂.nil
  | cons c rest ih =>
    intro i hi
    rw [spawnFrom_cons, spawnFrom_cons]
    have hi1 : i + 1 + rest.length ≤ n := by
      rw [List.length_cons] at hi
      omega
    apply forallTwo_append
    · rw [spawnOne_char, spawnOne_char]
      simp only [GPath.cId, GPath.cSt, GPath.mSt, GPath.mV]
      by_cases hskip : cid = some i ∧ isNoneSt cst
      · simp only [if_pos hskip]
        exact List.Forall₂.nil
      · simp only [if_neg hskip]
        rw [metaR_step n k i, metaS_step n k i]
        by_cases hik : i = k
        · simp only [if_pos hik]
          have hk1n : k + 1 ≤ n := by omega
          rw [countPolicy_eq_vSm n (k + 1) hk1n]
          rw [if_neg (show ¬((.intSt ((k + 1 : Nat) : Int), vRm n (k + 1)) :
              EvalSt × Verdict).2 = Invalid from vRm_ne_invalid n (k + 1))]
          rw [if_neg (show ¬((.intSt ((k + 1 : Nat) : Int), vSm n (k + 1)) :
              EvalSt × Verdict).2 = Invalid from vSm_ne_invalid n (k + 1))]
          by_cases hc0 : c.init.2.cont = false
          · simp only [if_pos hc0]
            exact List.Forall₂.nil
          · simp only [if_neg hc0]
            by_cases hc1 : (c.test c.init.1 t).2 = Invalid
            · simp only [if_pos hc1]
              exact List.Forall₂.nil
            · simp only [if_neg hc1]
              refine List.Forall₂.cons ?_ List.Forall₂.nil
              exact ⟨k + 1, (c.test c.init.1 t).1, (c.test c.init.1 t).2, some i,
                by omega, hk1n, hc1, rfl, rfl⟩
        · simp only [if_neg hik]
          simp [List.forall₂_nil_left_iff]
    · exact ih (i + 1) hi1

lemma stepPath_rel (cs : List Con) (n : Nat) (hn : n = cs.length) (t : PyVal)
    (pR pS : GPath) (hrel : RelP n pR pS) :
    List.Forall₂ (RelP n)
      (stepPath cs (RangeC 0 (n : Int) 1) t pR)
      (stepPath cs (strictMeta n) t pS) := by
  obtain ⟨k, cst, cv, cid, hk1, hkn, hcv, rfl, rfl⟩ := hrel
  rw [stepPath_char, stepPath_char]
  apply forallTwo_append
  · rw [contPath_char, contPath_char]
    simp only [GPath.cV, GPath.cId, GPath.cSt, GPath.mSt, GPath.mV]
    by_cases hcont : cv.cont = true
    · simp only [if_pos hcont]
      cases cid with
      | none => exact List.Forall₂.nil
      | some i =>
        cases hc : cs.get? i with
        | none =>
          simp only [hc]
          exact List.Forall₂.nil
        | some c =>
          simp only [hc]
          by_cases hr : (c.test cst t).2 = Invalid
          · simp only [if_pos hr]
            exact List.Forall₂.nil
          · simp only [if_neg hr]
            refine List.Forall₂.cons ?_ List.Forall₂.nil
            exact ⟨k, (c.test cst t).1, (c.test cst t).2, some i, hk1, hkn, hr, rfl, rfl⟩
    · simp only [if_neg hcont]
      exact List.Forall₂.nil
  · simp only [GPath.cV]
    by_cases hm : cv.matc = true
    · simp only [if_pos hm]
      exact spawnFrom_rel n t k cst cv cid hkn cs 0 (by omega)
    · simp only [if_neg hm]
      exact List.Forall₂.nil

lemma relP_contribution_cont (n : Nat) (pR pS : GPath) (h : RelP n pR pS) :
    (pathVerdict pR).cont = true := by
  obtain ⟨k, cst, cv, cid, _, _, _, rfl, rfl⟩ := h
  rw [pathVerdict_cont]
  simp only [GPath.cV, GPath.mV, vRm_cont, Bool.or_true]

lemma relP_contribution_ne (n : Nat) (pR pS : GPath) (h : RelP n pR pS) :
    (pathVerdict pS).cont = true ∨ (pathVerdict pS).matc = true := by
  obtain ⟨k, cst, cv, cid, _, hkn, hcv, rfl, rfl⟩ := h
  rw [pathVerdict_cont, pathVerdict_matc]
  simp only [GPath.cV, GPath.mV]
  by_cases hk : k < n
  · left
    rw [vSm_cont]
    simp [hk]
  · rcases (Verdict.ne_Invalid_iff cv).mp hcv with hc | hm
    · left
      rw [hc]
      rfl
    · right
      rw [hm, vSm_matc]
      simp
      omega

lemma relP_matc_eq (n : Nat) (pR pS : GPath) (h : RelP n pR pS) :
    (pathVerdict pR).matc = (pathVerdict pS).matc := by
  obtain ⟨k, cst, cv, cid, _, _, _, rfl, rfl⟩ := h
  rw [pathVerdict_matc, pathVerdict_matc]
  simp only [GPath.cV, GPath.mV, vRm_matc, vSm_matc]

lemma rel_gv_matc (n : Nat) (psR psS : List GPath)
    (h : List.Forall₂ (RelP n) psR psS) :
    (groupVerdict psR).matc = (groupVerdict psS).matc := by
  rw [groupVerdict_matc, groupVerdict_matc]
  induction h with
  | nil => rfl
  | cons hr hrest ih =>
    rw [List.any_cons, List.any_cons, ih, relP_matc_eq n _ _ hr]

lemma rel_gvR_cont (n : Nat) (psR psS : List GPath)
    (h : List.Forall₂ (RelP n) psR psS) (hne : psR ≠ []) :
    (groupVerdict psR).cont = true := by
  rw [groupVerdict_cont]
  cases h with
  | nil => exact absurd rfl hne
  | cons hr hrest =>
    rw [List.any_cons, relP_contribution_cont n _ _ hr]
    rfl

lemma gv_ne_invalid_of_mem (ps : List GPath) (p : GPath) (hmem : p ∈ ps)
    (h : (pathVerdict p).cont = true ∨ (pathVerdict p).matc = true) :
    groupVerdict ps ≠ Invalid := by
  intro hinv
  rcases h with hc | hm
  · have h2 : ps.any (fun p => (pathVerdict p).cont) = true :=
      List.any_eq_true.mpr ⟨p, hmem, hc⟩
    have h3 : Invalid.cont = true := by
      rw [← hinv, groupVerdict_cont, h2]
    exact absurd h3 (by decide)
  · have h2 : ps.any (fun p => (pathVerdict p).matc) = true :=
      List.any_eq_true.mpr ⟨p, hmem, hm⟩
    have h3 : Invalid.matc = true := by
      rw [← hinv, groupVerdict_matc, h2]
    exact absurd h3 (by decide)

lemma stepPathR_nil_of_dead (cs : List Con) (n : Nat) (hn : n = cs.length) (t : PyVal)
    (pR pS : GPath) (hrel : RelP n pR pS)
    (hdead : (pathVerdict pS).cont = false) :
    stepPath cs (RangeC 0 (n : Int) 1) t pR = [] := by
  obtain ⟨k, cst, cv, cid, hk1, hkn, hcv, rfl, rfl⟩ := hrel
  rw [pathVerdict_cont] at hdead
  simp only [GPath.cV, GPath.mV] at hdead
  have hcv0 : cv.cont = false := by
    cases hc : cv.cont
    · rfl
    · rw [hc] at hdead
      exact absurd hdead (by simp)
  have hkn2 : ¬(k < n) := by
    intro hlt
    rw [vSm_cont] at hdead
    simp only [Bool.or_eq_false_iff, decide_eq_false_iff_not] at hdead
    exact hdead.2 hlt
  have hkeq : k = n := by omega
  subst hkeq
  rw [stepPath_char, contPath_char]
  simp only [GPath.cV, GPath.cId, GPath.cSt, GPath.mSt, GPath.mV]
  rw [if_neg (by rw [hcv0]; simp)]
  rw [List.nil_append]
  by_cases hm : cv.matc = true
  · rw [if_pos hm]
    have hnil : ∀ (crest : List Con) (i : Nat), i + crest.length ≤ k →
        spawnFrom (RangeC 0 (k : Int) 1)
          ⟨.intSt (k : Int), vRm k k, cst, cv, cid⟩ t i crest = [] := by
      intro crest
      induction crest with
      | nil =>
        intro i _
        rfl
      | cons c rest ih =>
        intro i hi
        rw [spawnFrom_cons, spawnOne_char]
        simp only [GPath.cId, GPath.cSt, GPath.mSt, GPath.mV]
        have hik : ¬(i = k) := by
          rw [List.length_cons] at hi
          omega
        rw [metaR_step k k i]
        rw [if_neg hik]
        have hrest : i + 1 + rest.length ≤ k := by
          rw [List.length_cons] at hi
          omega
        rw [ih (i + 1) hrest]
        by_cases hskip : cid = some i ∧ isNoneSt cst
        · rw [if_pos hskip]
          rfl
        · rw [if_neg hskip]
          rw [if_pos (show ((.intSt ((k : Nat) : Int), Invalid) :
              EvalSt × Verdict).2 = Invalid from rfl)]
          rfl
    exact hnil cs 0 (by omega)
  · rw [if_neg hm]

lemma stepAll_nil (cs : List Con) (n : Nat) (hn : n = cs.length) (t : PyVal) :
    ∀ (psR psS : List GPath), List.Forall₂ (RelP n) psR psS →
    (∀ p ∈ psS, (pathVerdict p).cont = false) →
    groupStepPaths cs (RangeC 0 (n : Int) 1) psR t = [] := by
  intro psR psS h
  induction h with
  | nil =>
    intro _
    rfl
  | cons hr hrest ih =>
    intro hdead
    rw [groupStepPaths_eq, List.flatMap_cons]
    rw [stepPathR_nil_of_dead cs n hn t _ _ hr (hdead _ (List.mem_cons_self _ _))]
    rw [List.nil_append]
    have h2 := ih (fun p hp => hdead p (List.mem_cons_of_mem _ hp))
    rw [groupStepPaths_eq] at h2
    exact h2

lemma rel_loop (cs : List Con) (n : Nat) (hn : n = cs.length) :
    ∀ (rest : List PyVal) (psR psS : List GPath),
    List.Forall₂ (RelP n) psR psS → psR ≠ [] →
    (matchLoop (groupTest cs (RangeC 0 (n : Int) 1)) (.paths psR)
        (groupVerdict psR) rest).matc
      = (matchLoop (groupTest cs (strictMeta n)) (.paths psS)
          (groupVerdict psS) rest).matc := by
  intro rest
  induction rest with
  | nil =>
    intro psR psS h _
    rw [matchLoop_nil, matchLoop_nil]
    exact rel_gv_matc n psR psS h
  | cons t rest ih =>
    intro psR psS h hne
    rw [matchLoop_cons, matchLoop_cons]
    rw [if_pos (rel_gvR_cont n psR psS h hne)]
    by_cases hScont : (groupVerdict psS).cont = true
    · rw [if_pos hScont]
      rw [groupTest_paths, groupTest_paths]
      have hstep : List.Forall₂ (RelP n)
          (groupStepPaths cs (RangeC 0 (n : Int) 1) psR t)
          (groupStepPaths cs (strictMeta n) psS t) := by
        rw [groupStepPaths_eq, groupStepPaths_eq]
        exact forallTwo_flatMap h _ _ (fun a b hab => stepPath_rel cs n hn t a b hab)
      cases hR : groupStepPaths cs (RangeC 0 (n : Int) 1) psR t with
      | nil =>
        rw [hR] at hstep
        cases hS : groupStepPaths cs (strictMeta n) psS t with
        | nil =>
          rw [if_pos (show groupVerdict ([] : List GPath) = Invalid from rfl),
              if_pos (show groupVerdict ([] : List GPath) = Invalid from rfl)]
          rw [matchLoop_invalid, matchLoop_invalid]
        | cons pS1 psS2 =>
          rw [hS] at hstep
          cases hstep
      | cons pR1 psR2 =>
        rw [hR] at hstep
        cases hS : groupStepPaths cs (strictMeta n) psS t with
        | nil =>
          rw [hS] at hstep
          cases hstep
        | cons pS1 psS2 =>
          rw [hS] at hstep
          cases hstep with
          | cons hr1 hrest1 =>
            have hgvR := gv_ne_invalid_of_mem (pR1 :: psR2) pR1 (List.mem_cons_self _ _)
              (Or.inl (relP_contribution_cont n _ _ hr1))
            have hgvS := gv_ne_invalid_of_mem (pS1 :: psS2) pS1 (List.mem_cons_self _ _)
              (relP_contribution_ne n _ _ hr1)
            rw [if_neg hgvR, if_neg hgvS]
            exact ih (pR1 :: psR2) (pS1 :: psS2) (List.Forall₂.cons hr1 hrest1) (by simp)
    · rw [if_neg hScont]
      have hdead : ∀ p ∈ psS, (pathVerdict p).cont = false := by
        intro p hp
        cases hcp : (pathVerdict p).cont
        · rfl
        · exact absurd
            (by rw [groupVerdict_cont]; exact List.any_eq_true.mpr ⟨p, hp, hcp⟩) hScont
      have hstepnil := stepAll_nil cs n hn t psR psS h hdead
      rw [groupTest_paths, hstepnil]
      rw [if_pos (show groupVerdict ([] : List GPath) = Invalid from rfl)]
      rw [matchLoop_invalid]

lemma rangeInit_verdict (n : Nat) :
    (RangeC 0 (n : Int) 1).init.2
      = if (0 : Int) < (n : Int) - 1 then Continue else Satisfied := by
  show (rangeTest (n : Int) 1 (.intSt 0) (.int 0)).2 = _
  unfold rangeTest
  norm_num
  split_ifs <;> rfl

lemma rangeInit_cont (n : Nat) : ((RangeC 0 (n : Int) 1).init.2).cont = true := by
  rw [rangeInit_verdict]
  split_ifs <;> rfl

lemma countPolicy0_eq_continue (n : Nat) (h : 1 ≤ n) :
    countPolicy (n : Int) (some (n : Int)) 0 = Continue := by
  unfold countPolicy
  rw [if_pos (show (0 : Int) < (n : Int) by omega)]

lemma seq_nil_cons_false (t : PyVal) (rest : List PyVal) :
    matchC (Sequence []) (t :: rest) = false := by
  rw [show matchC (Sequence []) (t :: rest)
      = (matchLoop (groupTest [] (RangeC 0 0 1))
          (.paths [⟨.intSt 0, Satisfied, .pv .none, Matching, none⟩])
          Satisfied (t :: rest)).matc from rfl]
  rw [matchLoop_cons, if_pos (show Satisfied.cont = true from rfl)]
  rw [show groupTest [] (RangeC 0 0 1)
      (.paths [⟨.intSt 0, Satisfied, .pv .none, Matching, none⟩]) t
      = (.paths [⟨.intSt 0, Satisfied, .pv .none, Matching, none⟩], Invalid) from rfl]
  rw [matchLoop_invalid]
  rfl

lemma strict_nil_cons_false (t : PyVal) (rest : List PyVal) :
    matchC (GroupStrict []) (t :: rest) = false := by
  rw [show matchC (GroupStrict []) (t :: rest)
      = (matchLoop (groupTest [] (strictMeta 0))
          (.paths [⟨.intSt 0, Matching, .pv .none, Matching, none⟩])
          Matching (t :: rest)).matc from rfl]
  rw [matchLoop_cons, if_neg (show ¬(Matching.cont = true) from by decide)]
  rfl

lemma spawnFrom_seed_rel (n : Nat) (t : PyVal) (vR0 vS0 : Verdict) :
    ∀ (crest : List Con) (i : Nat), i + crest.length ≤ n →
    List.Forall₂ (RelP n)
      (spawnFrom (RangeC 0 (n : Int) 1)
        ⟨.intSt ((0 : Nat) : Int), vR0, .pv .none, Matching, none⟩ t i crest)
      (spawnFrom (strictMeta n)
        ⟨.intSt ((0 : Nat) : Int), vS0, .pv .none, Matching, none⟩ t i crest) := by
  intro crest
  induction crest with
  | nil =>
    intro i _
    exact List.Forall₂.nil
  | cons c rest ih =>
    intro i hi
    rw [spawnFrom_cons, spawnFrom_cons]
    have hi1 : i + 1 + rest.length ≤ n := by
      rw [List.length_cons] at hi
      omega
    apply forallTwo_append
    · rw [spawnOne_char, spawnOne_char]
      simp only [GPath.cId, GPath.cSt, GPath.mSt, GPath.mV]
      have hskip : ¬((none : Option Nat) = some i ∧ isNoneSt (EvalSt.pv .none)) := by
        simp
      simp only [if_neg hskip]
      rw [metaR_step n 0 i, metaS_step n 0 i]
      by_cases hik : i = 0
      · simp only [if_pos hik]
        have hk1n : 0 + 1 ≤ n := by
          rw [List.length_cons] at hi
          omega
        rw [countPolicy_eq_vSm n (0 + 1) hk1n]
        rw [if_neg (show ¬((.intSt ((0 + 1 : Nat) : Int), vRm n (0 + 1)) :
            EvalSt × Verdict).2 = Invalid from vRm_ne_invalid n (0 + 1))]
        rw [if_neg (show ¬((.intSt ((0 + 1 : Nat) : Int), vSm n (0 + 1)) :
            EvalSt × Verdict).2 = Invalid from vSm_ne_invalid n (0 + 1))]
        by_cases hc0 : c.init.2.cont = false
        · simp only [if_pos hc0]
          exact List.Forall₂.nil
        · simp only [if_neg hc0]
          by_cases hc1 : (c.test c.init.1 t).2 = Invalid
          · simp only [if_pos hc1]
            exact List.Forall₂.nil
          · simp only [if_neg hc1]
            refine List.Forall₂.cons ?_ List.Forall₂.nil
            exact ⟨0 + 1, (c.test c.init.1 t).1, (c.test c.init.1 t).2, some i,
              by omega, hk1n, hc1, rfl, rfl⟩
      · simp only [if_neg hik]
        simp [List.forall₂_nil_left_iff]
    · exact ih (i + 1) hi1

lemma seed_step_rel (cs : List Con) (n : Nat) (hn : n = cs.length)
    (t : PyVal) (vR0 vS0 : Verdict) :
    List.Forall₂ (RelP n)
      (groupStepPaths cs (RangeC 0 (n : Int) 1)
        [⟨.intSt ((0 : Nat) : Int), vR0, .pv .none, Matching, none⟩] t)
      (groupStepPaths cs (strictMeta n)
        [⟨.intSt ((0 : Nat) : Int), vS0, .pv .none, Matching, none⟩] t) := by
  rw [groupStepPaths_eq, groupStepPaths_eq]
  rw [List.flatMap_cons, List.flatMap_nil, List.append_nil,
      List.flatMap_cons, List.flatMap_nil, List.append_nil]
  have h1 : stepPath cs (RangeC 0 (n : Int) 1) t
      ⟨.intSt ((0 : Nat) : Int), vR0, .pv .none, Matching, none⟩
      = spawnFrom (RangeC 0 (n : Int) 1)
          ⟨.intSt ((0 : Nat) : Int), vR0, .pv .none, Matching, none⟩ t 0 cs := by
    rw [stepPath_char, contPath_char]
    simp only [GPath.cV, GPath.cId, GPath.cSt, GPath.mSt, GPath.mV, Matching_cont,
      Matching_matc]
    simp
  have h2 : stepPath cs (strictMeta n) t
      ⟨.intSt ((0 : Nat) : Int), vS0, .pv .none, Matching, none⟩
      = spawnFrom (strictMeta n)
          ⟨.intSt ((0 : Nat) : Int), vS0, .pv .none, Matching, none⟩ t 0 cs := by
    rw [stepPath_char, contPath_char]
    simp only [GPath.cV, GPath.cId, GPath.cSt, GPath.mSt, GPath.mV, Matching_cont,
      Matching_matc]
    simp
  rw [h1, h2]
  exact spawnFrom_seed_rel n t vR0 vS0 cs 0 (by omega)

/-- C2 counterexample: for a single child over the empty stream the two
sides disagree.  `Sequence([Any()])` accepts `[]` because `Range(1)`'s
initial verdict is `test(0, 0) = Satisfied` (`0 < max - step` fails), while
the strict `CountRange(1, 1)` group rejects `[]` because the count policy
at zero consumed admissions is Continue, not Matching.  So the claimed
equivalence fails at n = 1, s = []. -/
theorem sequence_strict_group_cex :
    matchC (Sequence [Any]) [] = true ∧
    matchC (GroupStrict [Any]) [] = false ∧
    ¬(matchC (Sequence [Any]) [] = matchC (GroupStrict [Any]) []) := by
  decide

/-- C2 (amended): `Sequence(c1..cn)` and `Group(c1..cn,
meta=CountRange(n,n))` with strict left-to-right admission (the admitted
child index must equal the meta-constraint's running count) accept
exactly the same token sequences, EXCEPT in the single corner case n = 1
with the empty sequence, where `Sequence` accepts and the strict group
rejects; the hypothesis excludes exactly that corner. -/
theorem sequence_as_strict_countrange_group (cs : List Con) (s : List PyVal)
    (hs : cs.length = 1 → s ≠ []) :
    matchC (Sequence cs) s = matchC (GroupStrict cs) s := by
  cases s with
  | nil =>
    by_cases h0 : cs.length = 0
    · have hcs : cs = [] := List.length_eq_zero.mp h0
      subst hcs
      decide
    · by_cases h1 : cs.length = 1
      · exact absurd rfl (hs h1)
      · have h2 : 2 ≤ cs.length := by omega
        rw [show matchC (Sequence cs) []
            = ((RangeC 0 (cs.length : Int) 1).init.2).matc from rfl]
        rw [show matchC (GroupStrict cs) []
            = (countPolicy (cs.length : Int) (some (cs.length : Int)) 0).matc from rfl]
        rw [rangeInit_verdict cs.length,
            countPolicy0_eq_continue cs.length (by omega)]
        rw [if_pos (show (0 : Int) < (cs.length : Int) - 1 by omega)]
  | cons t rest =>
    by_cases h0 : cs.length = 0
    · have hcs : cs = [] := List.length_eq_zero.mp h0
      subst hcs
      rw [seq_nil_cons_false t rest, strict_nil_cons_false t rest]
    · rw [show matchC (Sequence cs) (t :: rest)
          = (matchLoop (groupTest cs (RangeC 0 (cs.length : Int) 1))
              (.paths [⟨.intSt ((0 : Nat) : Int), (RangeC 0 (cs.length : Int) 1).init.2,
                .pv .none, Matching, none⟩])
              ((RangeC 0 (cs.length : Int) 1).init.2) (t :: rest)).matc from rfl]
      rw [show matchC (GroupStrict cs) (t :: rest)
          = (matchLoop (groupTest cs (strictMeta cs.length))
              (.paths [⟨.intSt ((0 : Nat) : Int),
                countPolicy (cs.length : Int) (some (cs.length : Int)) 0,
                .pv .none, Matching, none⟩])
              (countPolicy (cs.length : Int) (some (cs.length : Int)) 0)
              (t :: rest)).matc from rfl]
      rw [matchLoop_cons, matchLoop_cons]
      rw [if_pos (rangeInit_cont cs.length)]
      rw [if_pos (show (countPolicy (cs.length : Int) (some (cs.length : Int)) 0).cont
          = true from by rw [countPolicy0_eq_continue cs.length (by omega)]; rfl)]
      rw [groupTest_paths, groupTest_paths]
      have hrel := seed_step_rel cs cs.length rfl t
        ((RangeC 0 (cs.length : Int) 1).init.2)
        (countPolicy (cs.length : Int) (some (cs.length : Int)) 0)
      cases hR : groupStepPaths cs (RangeC 0 (cs.length : Int) 1)
          [⟨.intSt ((0 : Nat) : Int), (RangeC 0 (cs.length : Int) 1).init.2,
            .pv .none, Matching, none⟩] t with
      | nil =>
        rw [hR] at hrel
        cases hS : groupStepPaths cs (strictMeta cs.length)
            [⟨.intSt ((0 : Nat) : Int),
              countPolicy (cs.length : Int) (some (cs.length : Int)) 0,
              .pv .none, Matching, none⟩] t with
        | nil =>
          rw [if_pos (show groupVerdict ([] : List GPath) = Invalid from rfl),
              if_pos (show groupVerdict ([] : List GPath) = Invalid from rfl)]
          rw [matchLoop_invalid, matchLoop_invalid]
        | cons pS1 psS2 =>
          rw [hS] at hrel
          cases hrel
      | cons pR1 psR2 =>
        rw [hR] at hrel
        cases hS : groupStepPaths cs (strictMeta cs.length)
            [⟨.intSt ((0 : Nat) : Int),
              countPolicy (cs.length : Int) (some (cs.length : Int)) 0,
              .pv .none, Matching, none⟩] t with
        | nil =>
          rw [hS] at hrel
          cases hrel
        | cons pS1 psS2 =>
          rw [hS] at hrel
          cases hrel with
          | cons hr1 hrest1 =>
            have hgvR := gv_ne_invalid_of_mem (pR1 :: psR2) pR1 (List.mem_cons_self _ _)
              (Or.inl (relP_contribution_cont cs.length _ _ hr1))
            have hgvS := gv_ne_invalid_of_mem (pS1 :: psS2) pS1 (List.mem_cons_self _ _)
              (relP_contribution_ne cs.length _ _ hr1)
            rw [if_neg hgvR, if_neg hgvS]
            exact rel_loop cs cs.length rfl rest (pR1 :: psR2) (pS1 :: psS2)
              (List.Forall₂.cons hr1 hrest1) (by simp)

/-- Witness for the amended C2 theorem at a concrete instance: two
children, so the corner-case hypothesis is vacuous, and both engines are
run on a one-token stream. -/
theorem sequence_as_strict_countrange_group_witness :
    (([Any, Single] : List Con).length = 1 → ([PyVal.int 5] : List PyVal) ≠ []) ∧
    matchC (Sequence [Any, Single]) [PyVal.int 5]
      = matchC (GroupStrict [Any, Single]) [PyVal.int 5] :=
  ⟨by decide,
   sequence_as_strict_countrange_group [Any, Single] [PyVal.int 5] (by decide)⟩

end ConstraintLib
